import Mathlib

/-!
Verification of the record-level patch engine of `bin/enrich_bib.py` and
`bin/fetch_thumbnails.py`: the regex-based bib record scanner, the field
merger, the per-record enrichment steps and the reverse-order patch applier.

Text is modelled as `List Char`.  The Python regexes used by the scripts
(`ENTRY_RE`, `FIELD_RE`, `KEY_RE`) are simple enough that their Python
matching semantics (leftmost, non-overlapping, lazy/greedy quantifiers as
used) are embedded directly as recursive scanning functions.
-/

/-- Python `\s` (ASCII subset, matching `str.strip()` whitespace too):
space, tab, newline, carriage return, vertical tab, form feed. -/
def pySpace (c : Char) : Bool :=
  c == ' ' || c == '\t' || c == '\n' || c == '\r' || c == Char.ofNat 11 || c == Char.ofNat 12

/-- Python `\w` (ASCII subset): letters, digits, underscore. -/
def isWordChar (c : Char) : Bool :=
  c.isAlpha || c.isDigit || c == '_'

/-- Python `str.lstrip()`. -/
def pyLStrip (l : List Char) : List Char := l.dropWhile pySpace

/-- Python `str.rstrip()`. -/
def pyRStrip (l : List Char) : List Char := (l.reverse.dropWhile pySpace).reverse

/-- Python `str.strip()`. -/
def pyStrip (l : List Char) : List Char := pyRStrip (pyLStrip l)

/-- Python `str.rstrip("\n")`: strip trailing newline characters only. -/
def rstripNl (l : List Char) : List Char := (l.reverse.dropWhile (fun c => c == '\n')).reverse

/-- Python `str.lower()` (ASCII). -/
def pyLower (l : List Char) : List Char := l.map Char.toLower

/-- Does `l` start with `pat`? -/
def startsWithSub : List Char → List Char → Bool
  | _, [] => true
  | [], _ :: _ => false
  | c :: rest, p :: ps => c == p && startsWithSub rest ps

/-- Python `s.split(pat)[0]`: the text before the first occurrence of `pat`. -/
def takeBeforeSub : List Char → List Char → List Char
  | [], _ => []
  | c :: rest, pat => if startsWithSub (c :: rest) pat then [] else c :: takeBeforeSub rest pat

/-- Python dict update: replace the value in place if the key exists, else append. -/
def dictUpd (d : List (List Char × List Char)) (k v : List Char) :
    List (List Char × List Char) :=
  if d.any (fun p => p.1 == k) then
    d.map (fun p => if p.1 == k then (k, v) else p)
  else d ++ [(k, v)]

/-- Dict membership (Python `k in d`). -/
def dhas (d : List (List Char × List Char)) (k : List Char) : Bool :=
  d.any (fun p => p.1 == k)

/-- Dict lookup (Python `d.get(k)`), `none` when absent. -/
def dget (d : List (List Char × List Char)) (k : List Char) : Option (List Char) :=
  (d.find? (fun p => p.1 == k)).map (fun p => p.2)

/-- Python truthiness for an optional string (`None` and `""` are falsy). -/
def pyTruthy : Option (List Char) → Bool
  | none => false
  | some s => !s.isEmpty

/-!
## Record scanner

`ENTRY_RE = (@\w+\s*\{[^@]*?\n\})` with `re.DOTALL`, used with `finditer`.
The lazy `[^@]*?\n\}` is embedded as `scanBody`: at each position first try
the two-character terminator `"\n}"`, else fail on `@`, else consume one
character.
-/

/-- Lazy scan for `[^@]*?\n\}`; returns the number of characters consumed
including the two-character terminator. -/
def scanBody : List Char → Option Nat
  | [] => none
  | c :: rest =>
    if c = '\n' ∧ rest.head? = some '}' then some 2
    else if c = '@' then none
    else (scanBody rest).map (· + 1)

/-- Match `\w+\s*\{[^@]*?\n\}` at the head of `l` (the part of `ENTRY_RE`
after the `@`); returns the number of characters consumed. -/
def matchAfterAt (l : List Char) : Option Nat :=
  let w := l.takeWhile isWordChar
  if w = [] then none
  else
    let l1 := l.dropWhile isWordChar
    let sp := l1.takeWhile pySpace
    let l2 := l1.dropWhile pySpace
    if l2.head? = some '{' then
      match scanBody l2.tail with
      | some k => some (w.length + sp.length + 1 + k)
      | none => none
    else none

/-- Match `ENTRY_RE` at the head of `l`; returns the match length. -/
def entryMatchAt (l : List Char) : Option Nat :=
  match l with
  | [] => none
  | c :: rest => if c = '@' then (matchAfterAt rest).map (· + 1) else none

/-- `ENTRY_RE.finditer` on the text: try a match at each position, emit
non-overlapping matches left to right; `skip` characters are still covered
by the previous match and are not match starts. -/
def findEntriesAux : List Char → Nat → Nat → List (Nat × List Char)
  | [], _, _ => []
  | _ :: rest, pos, skip + 1 => findEntriesAux rest (pos + 1) skip
  | c :: rest, pos, 0 =>
    match entryMatchAt (c :: rest) with
    | some n => (pos, (c :: rest).take n) :: findEntriesAux rest (pos + 1) (n - 1)
    | none => findEntriesAux rest (pos + 1) 0

/-- All `ENTRY_RE` matches of the buffer with their start offsets. -/
def findEntries (l : List Char) (pos : Nat) : List (Nat × List Char) :=
  findEntriesAux l pos 0

/-!
## Field scanner

`FIELD_RE = ^\s{2}(\w+)\s*=\s*\{([^}]*)\}` with `re.MULTILINE`, used with
`findall`.
-/

/-- Match `FIELD_RE` (without the `^` anchor, handled by the caller) at the
head of `l`; returns (match length, name group, value group). -/
def matchFieldAt (l : List Char) : Option (Nat × List Char × List Char) :=
  match l with
  | c1 :: c2 :: rest =>
    if pySpace c1 ∧ pySpace c2 then
      let w := rest.takeWhile isWordChar
      if w = [] then none
      else
        let r1 := rest.dropWhile isWordChar
        let sp1 := r1.takeWhile pySpace
        let r2 := r1.dropWhile pySpace
        match r2 with
        | '=' :: r3 =>
          let sp2 := r3.takeWhile pySpace
          let r4 := r3.dropWhile pySpace
          match r4 with
          | '{' :: r5 =>
            let v := r5.takeWhile (fun c => ¬ c = '}')
            let r6 := r5.dropWhile (fun c => ¬ c = '}')
            match r6 with
            | '}' :: _ =>
              some (2 + w.length + sp1.length + 1 + sp2.length + 1 + v.length + 1, w, v)
            | _ => none
          | _ => none
        | _ => none
    else none
  | _ => none

/-- `FIELD_RE.findall` with `re.MULTILINE`: `atStart` records whether the
current position is at the start of a line. -/
def findFieldsAux : List Char → Bool → Nat → List (List Char × List Char)
  | [], _, _ => []
  | c :: rest, _, skip + 1 => findFieldsAux rest (c == '\n') skip
  | c :: rest, atStart, 0 =>
    if atStart then
      match matchFieldAt (c :: rest) with
      | some (n, name, v) => (name, v) :: findFieldsAux rest false (n - 1)
      | none => findFieldsAux rest (c == '\n') 0
    else findFieldsAux rest (c == '\n') 0

/-- All `FIELD_RE` matches of a record's raw text (name, value) in order. -/
def findFields (l : List Char) : List (List Char × List Char) :=
  findFieldsAux l true 0

/-- The fields dict of a record:
`{f.lower(): v.strip() for f, v in FIELD_RE.findall(raw)}`. -/
def buildFields (raw : List Char) : List (List Char × List Char) :=
  (findFields raw).foldl (fun d p => dictUpd d (pyLower p.1) (pyStrip p.2)) []

/-!
## Key scanner

`KEY_RE = @\w+\s*\{(\S+?),` used with `search`.
-/

/-- Continue the lazy `\S+?` scan (at least one character already consumed,
held reversed in `acc`) until the `,` terminator. -/
def scanKeyBody : List Char → List Char → Option (List Char)
  | [], _ => none
  | c :: rest, acc =>
    if c = ',' then some acc.reverse
    else if pySpace c then none
    else scanKeyBody rest (c :: acc)

/-- Lazy `(\S+?),` at the head of `l`: shortest non-empty run of non-space
characters followed by a comma; returns the group. -/
def scanKeyLazy : List Char → Option (List Char)
  | [] => none
  | c :: rest => if pySpace c then none else scanKeyBody rest [c]

/-- Match `\w+\s*\{(\S+?),` at the head of `l` (after the `@`). -/
def matchKeyAfterAt (l : List Char) : Option (List Char) :=
  let w := l.takeWhile isWordChar
  if w = [] then none
  else
    let l2 := (l.dropWhile isWordChar).dropWhile pySpace
    match l2 with
    | '{' :: l3 => scanKeyLazy l3
    | _ => none

/-- `KEY_RE.search`: try each position left to right, return the first key group. -/
def searchKey : List Char → Option (List Char)
  | [] => none
  | c :: rest =>
    if c = '@' then
      match matchKeyAfterAt rest with
      | some k => some k
      | none => searchKey rest
    else searchKey rest

/-- One parsed record: `{key, raw, fields, span}` as built by `parse_entries`. -/
structure Entry where
  key : List Char
  raw : List Char
  fields : List (List Char × List Char)
  span : Nat × Nat
deriving DecidableEq

/-- Build an `Entry` from a match, as `enrich_bib.parse_entries` does:
a failed key search yields the key `"unknown"`. -/
def mkEntryEB (p : Nat × List Char) : Entry :=
  { key := (searchKey p.2).getD ("unknown".data)
    raw := p.2
    fields := buildFields p.2
    span := (p.1, p.1 + p.2.length) }

/-- `enrich_bib.parse_entries`. -/
def parseEntriesEB (text : List Char) : List Entry :=
  (findEntries text 0).map mkEntryEB

/-- Build an `Entry` from a match, as `fetch_thumbnails.parse_entries` does:
`KEY_RE.search(raw).group(1)` raises `AttributeError` when the key regex
does not match, modelled as `none`. -/
def mkEntryFT (p : Nat × List Char) : Option Entry :=
  match searchKey p.2 with
  | some k => some { key := k, raw := p.2, fields := buildFields p.2,
                     span := (p.1, p.1 + p.2.length) }
  | none => none

/-- Build all entries, stopping with `none` at the first failure (the
Python loop raises there and nothing is returned). -/
def mkEntriesFT : List (Nat × List Char) → Option (List Entry)
  | [] => some []
  | p :: rest =>
    match mkEntryFT p, mkEntriesFT rest with
    | some e, some es => some (e :: es)
    | _, _ => none

/-- `fetch_thumbnails.parse_entries`. -/
def parseEntriesFT (text : List Char) : Option (List Entry) :=
  mkEntriesFT (findEntries text 0)

/-!
## Field merger

`inject_fields` (enrich_bib.py) and `inject_field` (fetch_thumbnails.py).
-/

/-- One inserted field line: `f"  {name:<12}= {{{value}}},"`. -/
def mkFieldLine (name value : List Char) : List Char :=
  ' ' :: ' ' :: (name ++ List.replicate (12 - name.length) ' ') ++
    '=' :: ' ' :: '{' :: (value ++ ['}', ','])

/-- Python `"\n".join`. -/
def joinNl : List (List Char) → List Char
  | [] => []
  | [x] => x
  | x :: y :: rest => x ++ '\n' :: joinNl (y :: rest)

/-- Python `raw.rfind("\n}")`: index of the last occurrence of the closing
marker, `none` when absent. -/
def rfindCloser : List Char → Option Nat
  | [] => none
  | c :: rest =>
    match rfindCloser rest with
    | some i => some (i + 1)
    | none => if c = '\n' ∧ rest.head? = some '}' then some 0 else none

/-- Python `before.rfind("\n")`. -/
def rfindNl : List Char → Option Nat
  | [] => none
  | c :: rest =>
    match rfindNl rest with
    | some i => some (i + 1)
    | none => if c = '\n' then some 0 else none

/-- `before[last_line_end + 1:]` start index (0 when there is no newline,
mirroring Python's `rfind` returning `-1`). -/
def lastLineStart (before : List Char) : Nat :=
  match rfindNl before with
  | some i => i + 1
  | none => 0

/-- The separator-repair guard:
`last_line.strip() and not last_line.rstrip().endswith(",")`. -/
def repairCond (before : List Char) : Bool :=
  let ll := before.drop (lastLineStart before)
  !(pyStrip ll).isEmpty && !((pyRStrip ll).getLast? == some ',')

/-- `enrich_bib.inject_fields`. -/
def inject_fields (raw : List Char) (newFields : List (List Char × List Char)) :
    List Char :=
  let insertion := joinNl (newFields.map (fun p => mkFieldLine p.1 p.2)) ++ ['\n']
  match rfindCloser raw with
  | none => raw
  | some idx =>
    let before := raw.take idx
    let k := lastLineStart before
    let before2 :=
      if repairCond before then
        rstripNl (before.take k ++ pyRStrip (before.drop k) ++ [',', '\n'])
      else before
    before2 ++ '\n' :: insertion ++ raw.drop idx

/-- `fetch_thumbnails.inject_field`. -/
def inject_field (raw : List Char) (name value : List Char) : List Char :=
  let line := mkFieldLine name value
  match rfindCloser raw with
  | none => raw
  | some idx =>
    let before := raw.take idx
    let k := lastLineStart before
    let before2 :=
      if repairCond before then
        before.take k ++ pyRStrip (before.drop k) ++ [',']
      else before
    before2 ++ '\n' :: line ++ '\n' :: raw.drop idx

/-- Does a merge of `raw` take the separator-repair branch? -/
def repairFires (raw : List Char) : Bool :=
  match rfindCloser raw with
  | none => false
  | some idx => repairCond (raw.take idx)

/-!
## Patch applier

`sorted(replacements, key=lambda x: -x[0][0])` followed by
`new_text = new_text[:start] + new_raw + new_text[end:]`.
-/

/-- A pending patch: `((start, end), new_raw)`. -/
abbrev Patch := (Nat × Nat) × List Char

/-- Splice `r` over the span `[s, e)` of `text`. -/
def splice (text : List Char) (s e : Nat) (r : List Char) : List Char :=
  text.take s ++ r ++ text.drop e

/-- Stable insertion for sorting by descending start offset. -/
def insertDescByStart (x : Patch) : List Patch → List Patch
  | [] => [x]
  | y :: ys => if y.1.1 ≤ x.1.1 then x :: y :: ys else y :: insertDescByStart x ys

/-- Stable sort by descending start offset (Python `sorted` with key `-start`). -/
def sortDescByStart (l : List Patch) : List Patch :=
  l.foldr insertDescByStart []

/-- Apply all patches to the buffer: sort by descending start offset, then
splice each merged text at its original span. -/
def applyPatches (text : List Char) (ps : List Patch) : List Char :=
  (sortDescByStart ps).foldl (fun t p => splice t p.1.1 p.1.2 p.2) text

/-!
## Enrichment orchestrators

The per-record bodies of `main` in both scripts.  Network lookups are
oracles passed in as functions: `cr title firstAuthor = (doi?, url?)`
models `crossref_lookup`, `alt doi key = aid?` models `altmetric_lookup`,
and `resolve entry = filename?` models the whole publisher-aware thumbnail
resolution of `fetch_thumbnails` (steps 1-3 of its per-entry body).
-/

structure EBOpts where
  dryRun : Bool
  noAltmetric : Bool
  altKey : List Char
deriving DecidableEq

structure FTOpts where
  dryRun : Bool
  force : Bool
deriving DecidableEq

/-- `fields.get("title", "")`. -/
def ebTitle (e : Entry) : List Char := (dget e.fields ("title".data)).getD []

/-- `authors_raw.split(" and ")[0].split(",")[0].strip() if authors_raw else ""`. -/
def ebFirstAuthor (e : Entry) : List Char :=
  pyStrip (takeBeforeSub (takeBeforeSub ((dget e.fields ("author".data)).getD [])
    (" and ".data)) (",".data))

/-- The per-entry body of `enrich_bib.main` (lines 146-204): returns the
`to_add` mapping and whether the Altmetric lookup was attempted. -/
def ebStep (cr : List Char → List Char → Option (List Char) × Option (List Char))
    (alt : List Char → List Char → Option (List Char))
    (opts : EBOpts) (e : Entry) : List (List Char × List Char) × Bool :=
  let fields := e.fields
  let needDoi := !(dhas fields ("doi".data))
  let needHtml := !(dhas fields ("html".data))
  let needAlt := !(dhas fields ("altmetric".data)) && !opts.noAltmetric
  if !(needDoi || needHtml || needAlt) then ([], false)
  else
    let doi0 := dget fields ("doi".data)
    let crossrefPart :=
      if needDoi || needHtml then
        let r := cr (ebTitle e) (ebFirstAuthor e)
        let doiPart :=
          match r.1 with
          | some d => if !d.isEmpty && needDoi then ([(("doi".data), d)], some d) else ([], doi0)
          | none => ([], doi0)
        let htmlPart :=
          match r.2 with
          | some u => if !u.isEmpty && needHtml then [(("html".data), u)] else []
          | none => []
        (doiPart.1 ++ htmlPart, doiPart.2)
      else ([], doi0)
    let altCalled := needAlt && pyTruthy crossrefPart.2
    let altPart :=
      if altCalled then
        match alt (crossrefPart.2.getD []) opts.altKey with
        | some aid => if !aid.isEmpty then [(("altmetric".data), aid)] else []
        | none => []
      else []
    (crossrefPart.1 ++ altPart, altCalled)

/-- Whether `enrich_bib.main` attempts the Altmetric lookup for an entry. -/
def ebAltCalled (cr : List Char → List Char → Option (List Char) × Option (List Char))
    (alt : List Char → List Char → Option (List Char))
    (opts : EBOpts) (e : Entry) : Bool :=
  (ebStep cr alt opts e).2

/-- The accumulated replacement list of `enrich_bib.main`. -/
def ebReplacements (cr : List Char → List Char → Option (List Char) × Option (List Char))
    (alt : List Char → List Char → Option (List Char))
    (opts : EBOpts) (text : List Char) : List Patch :=
  (parseEntriesEB text).filterMap (fun e =>
    let toAdd := (ebStep cr alt opts e).1
    if toAdd.isEmpty then none else some (e.span, inject_fields e.raw toAdd))

/-- The per-entry body of `fetch_thumbnails.main` (lines 218-303). -/
def ftStep (resolve : Entry → Option (List Char)) (opts : FTOpts) (e : Entry) :
    Option Patch :=
  if !opts.force && dhas e.fields ("preview".data) then none
  else
    let doi := (dget e.fields ("doi".data)).getD []
    let html := (dget e.fields ("html".data)).getD []
    if doi.isEmpty && html.isEmpty then none
    else
      match resolve e with
      | some fn => if fn.isEmpty then none else some (e.span, inject_field e.raw ("preview".data) fn)
      | none => none

/-- Observable outcome of a completed run. -/
structure RunOut where
  reps : List Patch
  final : List Char
  written : Option (List Char)
  printed : Option (List Char)
deriving DecidableEq

/-- Result of a whole process run: `fail msg` models `sys.exit(msg)` or an
uncaught exception (non-zero exit status), `done` a run that exits zero. -/
inductive RunRes where
  | fail (msg : List Char)
  | done (o : RunOut)
deriving DecidableEq

/-- Whole-run model of `enrich_bib.main`: the input-file check, patch
collection, and the final dry-run/write branch. -/
def ebRun (fileExists : Bool) (text : List Char)
    (cr : List Char → List Char → Option (List Char) × Option (List Char))
    (alt : List Char → List Char → Option (List Char))
    (opts : EBOpts) : RunRes :=
  if !fileExists then .fail ("File not found".data)
  else
    let reps := ebReplacements cr alt opts text
    let newText := applyPatches text reps
    if reps.isEmpty then .done ⟨[], text, none, none⟩
    else if opts.dryRun then .done ⟨reps, newText, none, some newText⟩
    else .done ⟨reps, newText, some newText, none⟩

/-- Whole-run model of `fetch_thumbnails.main`: the input-file check, the
parse (which can raise `AttributeError`), patch collection, and the final
dry-run/write branch (the dry-run branch prints only a static notice,
never the resulting text). -/
def ftRun (fileExists : Bool) (text : List Char)
    (resolve : Entry → Option (List Char)) (opts : FTOpts) : RunRes :=
  if !fileExists then .fail ("File not found".data)
  else
    match parseEntriesFT text with
    | none => .fail ("AttributeError".data)
    | some es =>
      let reps := es.filterMap (ftStep resolve opts)
      let newText := applyPatches text reps
      if reps.isEmpty then .done ⟨[], text, none, none⟩
      else if opts.dryRun then .done ⟨reps, newText, none, none⟩
      else .done ⟨reps, newText, some newText, none⟩

/-- The file contents written by a run, if any. -/
def runWritten : RunRes → Option (List Char)
  | .fail _ => none
  | .done o => o.written

/-- The full resulting text printed by a run, if any. -/
def runPrinted : RunRes → Option (List Char)
  | .fail _ => none
  | .done o => o.printed

/-- The number of pending patches a run produced. -/
def runRepsLen : RunRes → Nat
  | .fail _ => 0
  | .done o => o.reps.length

/-- Did the run complete (exit status zero)? -/
def runIsDone : RunRes → Bool
  | .fail _ => false
  | .done _ => true

/-- The final buffer of a completed run. -/
def runFinal : RunRes → Option (List Char)
  | .fail _ => none
  | .done o => some o.final

/-!
## Claim-level notions
-/

/-- The closing marker `"\n}"` occurs somewhere in `l`. -/
def containsCloser (l : List Char) : Prop :=
  ∃ a b, l = a ++ '\n' :: '}' :: b

/-- `r` scans as exactly one record covering the whole of `r`:
an `ENTRY_RE` match at position 0 consumes all of `r`. -/
def entryFull (r : List Char) : Prop :=
  entryMatchAt r = some r.length

/-- Does `pat` occur as a contiguous segment of `l`? -/
def containsSeg (pat : List Char) : List Char → Bool
  | [] => startsWithSub [] pat
  | c :: rest => startsWithSub (c :: rest) pat || containsSeg pat rest

/-- Reassemble a buffer from (gap, record) pairs and a final gap. -/
def assemble : List (List Char × List Char) → List Char → List Char
  | [], gfin => gfin
  | (g, r) :: rest, gfin => g ++ (r ++ assemble rest gfin)

/-- Total length of the (gap, record) pairs. -/
def pairsLen : List (List Char × List Char) → Nat
  | [] => 0
  | (g, r) :: rest => g.length + r.length + pairsLen rest

/-- The (start offset, record text) list of an assembled buffer. -/
def spansOf : List (List Char × List Char) → Nat → List (Nat × List Char)
  | [], _ => []
  | (g, r) :: rest, pos => (pos + g.length, r) :: spansOf rest (pos + g.length + r.length)

/-- No suffix of the gap `g` starts an `ENTRY_RE` match, even when `g` is
followed by text whose first `@` is the start of the next record. -/
def gapMidOK (g : List Char) : Prop :=
  ∀ i, entryMatchAt (g.drop i ++ ['@']) = none

/-- No suffix of the final gap starts an `ENTRY_RE` match. -/
def gapEndOK (g : List Char) : Prop :=
  ∀ i, entryMatchAt (g.drop i) = none

/-- The patch list obtained by offering each record (by start offset and
text) to the replacement choice `c`. -/
def repsOfC (c : Nat → List Char → Option (List Char))
    (pairs : List (List Char × List Char)) (pos : Nat) : List Patch :=
  (spansOf pairs pos).filterMap
    (fun p => (c p.1 p.2).map (fun r2 => ((p.1, p.1 + p.2.length), r2)))

/-- Replace each record by the choice `c` (keeping it when `c` declines),
offsets advancing by the original lengths. -/
def replaceC (c : Nat → List Char → Option (List Char)) :
    List (List Char × List Char) → Nat → List (List Char × List Char)
  | [], _ => []
  | (g, r) :: rest, pos =>
    (g, (c (pos + g.length) r).getD r) :: replaceC c rest (pos + g.length + r.length)

/-!
## Helper lemmas about `rfindCloser`, `rfindNl` and the repair guard
-/

theorem rfindCloser_cons (c : Char) (rest : List Char) :
    rfindCloser (c :: rest) =
      match rfindCloser rest with
      | some i => some (i + 1)
      | none => if c = '\n' ∧ rest.head? = some '}' then some 0 else none := rfl

theorem containsCloser_cons (c : Char) (rest : List Char) :
    containsCloser (c :: rest) ↔ (c = '\n' ∧ rest.head? = some '}') ∨ containsCloser rest := by
  constructor
  · rintro ⟨a, b, hab⟩
    cases a with
    | nil =>
      simp only [List.nil_append, List.cons.injEq] at hab
      exact Or.inl ⟨hab.1, by rw [hab.2]; rfl⟩
    | cons x a2 =>
      simp only [List.cons_append, List.cons.injEq] at hab
      exact Or.inr ⟨a2, b, hab.2⟩
  · rintro (⟨h1, h2⟩ | ⟨a, b, hab⟩)
    · cases rest with
      | nil => simp at h2
      | cons r rs =>
        simp only [List.head?_cons, Option.some.injEq] at h2
        exact ⟨[], rs, by simp [h1, h2]⟩
    · exact ⟨c :: a, b, by simp [hab]⟩

theorem rfindCloser_eq_none_iff (l : List Char) :
    rfindCloser l = none ↔ ¬ containsCloser l := by
  induction l with
  | nil =>
    simp only [rfindCloser, true_iff]
    rintro ⟨a, b, hab⟩
    exact absurd hab.symm (by simp)
  | cons c rest ih =>
    rw [rfindCloser_cons, containsCloser_cons]
    cases hr : rfindCloser rest with
    | some j =>
      have hc : containsCloser rest := by
        by_contra hnc
        rw [← ih] at hnc
        simp [hr] at hnc
      simp [hc]
    | none =>
      have hnc : ¬ containsCloser rest := ih.mp hr
      by_cases h : c = '\n' ∧ rest.head? = some '}'
      · simp [h]
      · simp [h, hnc]

theorem rfindCloser_append_some {ys : List Char} {i : Nat} (xs : List Char)
    (h : rfindCloser ys = some i) :
    rfindCloser (xs ++ ys) = some (xs.length + i) := by
  induction xs with
  | nil => simpa using h
  | cons c xs ih =>
    rw [List.cons_append, rfindCloser_cons, ih]
    simp only [List.length_cons]
    congr 1
    omega

theorem rfindCloser_spec {l : List Char} {i : Nat} (h : rfindCloser l = some i) :
    ∃ t, l = l.take i ++ '\n' :: '}' :: t ∧ (l.take i).length = i ∧ rfindCloser t = none := by
  induction l generalizing i with
  | nil => simp [rfindCloser] at h
  | cons c rest ih =>
    rw [rfindCloser_cons] at h
    cases hr : rfindCloser rest with
    | some j =>
      rw [hr] at h
      simp only [Option.some.injEq] at h
      obtain ⟨t, ht1, ht2, ht3⟩ := ih hr
      refine ⟨t, ?_, ?_, ht3⟩
      · subst h
        simp only [List.take_succ_cons, List.cons_append, List.cons.injEq, true_and]
        exact ht1
      · subst h
        simp only [List.take_succ_cons, List.length_cons]
        omega
    | none =>
      rw [hr] at h
      by_cases hc : c = '\n' ∧ rest.head? = some '}'
      · rw [if_pos hc] at h
        simp only [Option.some.injEq] at h
        obtain ⟨h1, h2⟩ := hc
        cases rest with
        | nil => simp at h2
        | cons r rs =>
          simp only [List.head?_cons, Option.some.injEq] at h2
          refine ⟨rs, ?_, ?_, ?_⟩
          · simp [← h, h1, h2]
          · simp [← h]
          · rw [rfindCloser_cons] at hr
            cases hrs : rfindCloser rs with
            | some k => rw [hrs] at hr; simp at hr
            | none => rfl
      · rw [if_neg hc] at h
        exact absurd h (by simp)

theorem rfindNl_concat_nl (xs : List Char) :
    rfindNl (xs ++ ['\n']) = some xs.length := by
  induction xs with
  | nil => rfl
  | cons c xs ih =>
    show rfindNl (c :: (xs ++ ['\n'])) = _
    unfold rfindNl
    rw [ih]
    simp

theorem repairCond_concat_nl (q : List Char) : repairCond (q ++ ['\n']) = false := by
  unfold repairCond lastLineStart
  rw [rfindNl_concat_nl]
  have : (q ++ ['\n']).drop (q.length + 1) = [] := by
    apply List.drop_eq_nil_of_le
    simp
  rw [this]
  rfl

theorem repairFires_of_decomp (q t : List Char) (ht : rfindCloser t = none) :
    repairFires ((q ++ ['\n']) ++ '\n' :: '}' :: t) = false := by
  have h0 : rfindCloser ('\n' :: '}' :: t) = some 0 := by
    rw [rfindCloser_cons]
    have : rfindCloser ('}' :: t) = none := by
      rw [rfindCloser_cons, ht]
      simp
    rw [this]
    simp
  have h1 : rfindCloser ((q ++ ['\n']) ++ '\n' :: '}' :: t) = some (q.length + 1) := by
    have := rfindCloser_append_some (q ++ ['\n']) h0
    simpa using this
  have h2 : ((q ++ ['\n']) ++ '\n' :: '}' :: t).take (q.length + 1) = q ++ ['\n'] := by
    have : q.length + 1 = (q ++ ['\n']).length := by simp
    rw [this, List.take_left]
  unfold repairFires
  rw [h1]
  show repairCond (((q ++ ['\n']) ++ '\n' :: '}' :: t).take (q.length + 1)) = false
  rw [h2, repairCond_concat_nl]

theorem drop_left_of_length {α : Type} {A s : List α} {idx : Nat} (hl : A.length = idx) :
    (A ++ s).drop idx = s := by
  subst hl
  exact List.drop_left _ _

theorem take_left_of_length {α : Type} {A s : List α} {idx : Nat} (hl : A.length = idx) :
    (A ++ s).take idx = A := by
  subst hl
  exact List.take_left _ _

theorem inject_fields_some {raw : List Char} {idx : Nat}
    (fs : List (List Char × List Char)) (h : rfindCloser raw = some idx) :
    inject_fields raw fs =
      (if repairCond (raw.take idx) then
        rstripNl ((raw.take idx).take (lastLineStart (raw.take idx)) ++
          pyRStrip ((raw.take idx).drop (lastLineStart (raw.take idx))) ++ [',', '\n'])
       else raw.take idx) ++
      '\n' :: (joinNl (fs.map fun p => mkFieldLine p.1 p.2) ++ ['\n']) ++ raw.drop idx := by
  unfold inject_fields
  rw [h]

theorem inject_field_some {raw : List Char} {idx : Nat}
    (name value : List Char) (h : rfindCloser raw = some idx) :
    inject_field raw name value =
      (if repairCond (raw.take idx) then
        (raw.take idx).take (lastLineStart (raw.take idx)) ++
          pyRStrip ((raw.take idx).drop (lastLineStart (raw.take idx))) ++ [',']
       else raw.take idx) ++
      '\n' :: mkFieldLine name value ++ '\n' :: raw.drop idx := by
  unfold inject_field
  rw [h]

theorem rstripNl_concat (x : List Char) : rstripNl (x ++ [',', '\n']) = x ++ [','] := by
  show ((x ++ [',', '\n']).reverse.dropWhile (fun c => c == '\n')).reverse = x ++ [',']
  rw [show (x ++ [',', '\n']).reverse = '\n' :: ',' :: x.reverse by simp]
  rw [List.dropWhile_cons]
  simp [List.dropWhile_cons]

/-- C6: if the closing marker `"\n}"` does not occur in a record's text,
both mergers return the input unchanged, for any new fields. -/
theorem c6_merger_unchanged (raw : List Char) (fs : List (List Char × List Char))
    (n v : List Char) (h : ¬ containsCloser raw) :
    inject_fields raw fs = raw ∧ inject_field raw n v = raw := by
  have hr : rfindCloser raw = none := (rfindCloser_eq_none_iff raw).mpr h
  constructor
  · unfold inject_fields
    rw [hr]
  · unfold inject_field
    rw [hr]

theorem c6_witness :
    ¬ containsCloser ("@a\x7bk,".data) ∧
    inject_fields ("@a\x7bk,".data) [(("doi".data), ("d".data))] = ("@a\x7bk,".data) ∧
    inject_field ("@a\x7bk,".data) ("preview".data) ("p".data) = ("@a\x7bk,".data) := by
  have h : ¬ containsCloser ("@a\x7bk,".data) :=
    (rfindCloser_eq_none_iff _).mp (by decide)
  exact ⟨h, (c6_merger_unchanged _ [(("doi".data), ("d".data))] ("preview".data) ("p".data) h).1,
    (c6_merger_unchanged _ [(("doi".data), ("d".data))] ("preview".data) ("p".data) h).2⟩

theorem repairFires_shape_eb (b2 j t : List Char) (ht : rfindCloser t = none) :
    repairFires (b2 ++ '\n' :: (j ++ ['\n']) ++ '\n' :: '}' :: t) = false := by
  have he : b2 ++ '\n' :: (j ++ ['\n']) ++ '\n' :: '}' :: t =
      ((b2 ++ '\n' :: j) ++ ['\n']) ++ '\n' :: '}' :: t := by
    simp
  rw [he]
  exact repairFires_of_decomp _ _ ht

theorem repairFires_shape_ft (b2 j t : List Char) (ht : rfindCloser t = none) :
    repairFires (b2 ++ '\n' :: j ++ '\n' :: ('\n' :: '}' :: t)) = false := by
  have he : b2 ++ '\n' :: j ++ '\n' :: ('\n' :: '}' :: t) =
      ((b2 ++ '\n' :: j) ++ ['\n']) ++ '\n' :: '}' :: t := by
    simp
  rw [he]
  exact repairFires_of_decomp _ _ ht

/-- C10: every inserted field line has the fixed shape
`"  " ++ name padded to 12 ++ "= {" ++ value ++ "},"` and thus ends with the
comma separator; consequently a merge applied to a merged output never takes
the separator-repair branch again. -/
theorem c10_inserted_line_shape (raw : List Char) (fs : List (List Char × List Char))
    (name value n v : List Char) (hcl : rfindCloser raw ≠ none) (_hfs : fs ≠ []) :
    mkFieldLine name value =
      ' ' :: ' ' :: (name ++ List.replicate (12 - name.length) ' ') ++
        '=' :: ' ' :: '{' :: (value ++ ['}', ',']) ∧
    (mkFieldLine name value).getLast? = some ',' ∧
    repairFires (inject_fields raw fs) = false ∧
    repairFires (inject_field raw n v) = false := by
  obtain ⟨idx, hidx⟩ := Option.ne_none_iff_exists'.mp hcl
  obtain ⟨t, hdecomp, hlen, ht⟩ := rfindCloser_spec hidx
  have hdrop : raw.drop idx = '\n' :: '}' :: t := by
    conv_lhs => rw [hdecomp]
    exact drop_left_of_length hlen
  refine ⟨rfl, ?_, ?_, ?_⟩
  · have he : mkFieldLine name value =
        (' ' :: ' ' :: (name ++ List.replicate (12 - name.length) ' ') ++
          '=' :: ' ' :: '{' :: (value ++ ['}'])) ++ [','] := by
      simp [mkFieldLine]
    rw [he, List.getLast?_concat]
  · rw [inject_fields_some fs hidx, hdrop]
    exact repairFires_shape_eb _ _ _ ht
  · rw [inject_field_some n v hidx, hdrop]
    exact repairFires_shape_ft _ _ _ ht

theorem c10_witness :
    rfindCloser ("@a\x7bk,\n  t = \x7bT\x7d,\n\x7d".data) ≠ none ∧
    ([(("doi".data), ("10.1/x".data))] : List (List Char × List Char)) ≠ [] ∧
    (mkFieldLine ("doi".data) ("10.1/x".data)).getLast? = some ',' ∧
    repairFires (inject_fields ("@a\x7bk,\n  t = \x7bT\x7d,\n\x7d".data)
      [(("doi".data), ("10.1/x".data))]) = false ∧
    repairFires (inject_field ("@a\x7bk,\n  t = \x7bT\x7d,\n\x7d".data)
      ("preview".data) ("p.png".data)) = false := by
  have h := c10_inserted_line_shape ("@a\x7bk,\n  t = \x7bT\x7d,\n\x7d".data)
    [(("doi".data), ("10.1/x".data))] ("doi".data) ("10.1/x".data)
    ("preview".data) ("p.png".data) (by decide) (by decide)
  exact ⟨by decide, by decide, h.2.1, h.2.2.1, h.2.2.2⟩

theorem repairCond_true_of {b : List Char}
    (hstrip : pyStrip (b.drop (lastLineStart b)) ≠ [])
    (hcomma : (pyRStrip (b.drop (lastLineStart b))).getLast? ≠ some ',') :
    repairCond b = true := by
  unfold repairCond
  simp only [Bool.and_eq_true, Bool.not_eq_true']
  constructor
  · cases hE : (pyStrip ((List.drop (lastLineStart b) b))).isEmpty
    · rfl
    · exact absurd (List.isEmpty_iff.mp hE) hstrip
  · rw [beq_eq_false_iff_ne]
    exact hcomma

/-- C4: when the last line before the closing marker has non-whitespace
content and does not end with the comma separator (ignoring trailing
whitespace), merging one new field appends the separator to that line
(with its trailing whitespace stripped) and inserts the new field line
after it, before the closing marker. -/
theorem c4_separator_repair (raw n v : List Char) (idx : Nat)
    (h : rfindCloser raw = some idx)
    (hstrip : pyStrip ((raw.take idx).drop (lastLineStart (raw.take idx))) ≠ [])
    (hcomma : (pyRStrip ((raw.take idx).drop (lastLineStart (raw.take idx)))).getLast? ≠ some ',') :
    inject_fields raw [(n, v)] =
      (raw.take idx).take (lastLineStart (raw.take idx)) ++
        (pyRStrip ((raw.take idx).drop (lastLineStart (raw.take idx))) ++ [',']) ++
        '\n' :: mkFieldLine n v ++ '\n' :: raw.drop idx ∧
    inject_field raw n v =
      (raw.take idx).take (lastLineStart (raw.take idx)) ++
        (pyRStrip ((raw.take idx).drop (lastLineStart (raw.take idx))) ++ [',']) ++
        '\n' :: mkFieldLine n v ++ '\n' :: raw.drop idx ∧
    (raw.drop idx).take 2 = ['\n', '}'] ∧
    raw.take idx = (raw.take idx).take (lastLineStart (raw.take idx)) ++
      (raw.take idx).drop (lastLineStart (raw.take idx)) := by
  have hrc : repairCond (raw.take idx) = true := repairCond_true_of hstrip hcomma
  obtain ⟨t, hdecomp, hlen, ht⟩ := rfindCloser_spec h
  have hdrop : raw.drop idx = '\n' :: '}' :: t := by
    conv_lhs => rw [hdecomp]
    exact drop_left_of_length hlen
  refine ⟨?_, ?_, ?_, (List.take_append_drop _ _).symm⟩
  · rw [inject_fields_some [(n, v)] h, if_pos hrc, rstripNl_concat]
    simp [joinNl, List.append_assoc]
  · rw [inject_field_some n v h, if_pos hrc]
    simp [List.append_assoc]
  · rw [hdrop]
    rfl

theorem c4_witness :
    rfindCloser ("@a\x7bk,\n  x = \x7bv\x7d\n\x7d".data) = some 15 ∧
    pyStrip ((("@a\x7bk,\n  x = \x7bv\x7d\n\x7d".data).take 15).drop
      (lastLineStart (("@a\x7bk,\n  x = \x7bv\x7d\n\x7d".data).take 15))) ≠ [] ∧
    (pyRStrip ((("@a\x7bk,\n  x = \x7bv\x7d\n\x7d".data).take 15).drop
      (lastLineStart (("@a\x7bk,\n  x = \x7bv\x7d\n\x7d".data).take 15)))).getLast? ≠ some ',' ∧
    inject_fields ("@a\x7bk,\n  x = \x7bv\x7d\n\x7d".data) [(("doi".data), ("d".data))] =
      (("@a\x7bk,\n  x = \x7bv\x7d\n\x7d".data).take 15).take
          (lastLineStart (("@a\x7bk,\n  x = \x7bv\x7d\n\x7d".data).take 15)) ++
        (pyRStrip ((("@a\x7bk,\n  x = \x7bv\x7d\n\x7d".data).take 15).drop
          (lastLineStart (("@a\x7bk,\n  x = \x7bv\x7d\n\x7d".data).take 15))) ++ [',']) ++
        '\n' :: mkFieldLine ("doi".data) ("d".data) ++ '\n' ::
          ("@a\x7bk,\n  x = \x7bv\x7d\n\x7d".data).drop 15 :=
  ⟨by decide, by decide, by decide,
    (c4_separator_repair ("@a\x7bk,\n  x = \x7bv\x7d\n\x7d".data) ("doi".data) ("d".data) 15
      (by decide) (by decide) (by decide)).1⟩

/-- C3 counterexample: on a record whose last field line carries trailing
whitespace and no comma, the merger deletes that whitespace.  Under the
claim the only changes are an inserted block at the insertion point and a
comma appended after the preceding content line, so that line's original
characters (`"  x = {v} "`, trailing space included) would remain a
contiguous segment of the output; they do not, for either merger. -/
theorem c3_counterexample :
    rfindCloser ("@a\x7bk,\n  x = \x7bv\x7d \n\x7d".data) = some 16 ∧
    (("@a\x7bk,\n  x = \x7bv\x7d \n\x7d".data).take 16).drop
      (lastLineStart (("@a\x7bk,\n  x = \x7bv\x7d \n\x7d".data).take 16)) =
      ("  x = \x7bv\x7d ".data) ∧
    containsSeg ("  x = \x7bv\x7d ".data) ("@a\x7bk,\n  x = \x7bv\x7d \n\x7d".data) = true ∧
    containsSeg ("  x = \x7bv\x7d ".data)
      (inject_fields ("@a\x7bk,\n  x = \x7bv\x7d \n\x7d".data)
        [(("doi".data), ("d".data))]) = false ∧
    containsSeg ("  x = \x7bv\x7d ".data)
      (inject_field ("@a\x7bk,\n  x = \x7bv\x7d \n\x7d".data)
        ("preview".data) ("p".data)) = false := by
  decide

/-- C3 (amended): the merger's output decomposes exactly: when no separator
repair is needed the output is the input with the new-field lines inserted
at the closing marker (so the input is a subsequence of the output); when
the repair fires, additionally the trailing whitespace of the immediately
preceding content line is stripped before the comma separator is appended. -/
theorem c3_merger_decomposition (raw : List Char) (fs : List (List Char × List Char))
    (n v : List Char) (idx : Nat) (h : rfindCloser raw = some idx) :
    (repairCond (raw.take idx) = false →
      inject_fields raw fs =
        raw.take idx ++ '\n' :: (joinNl (fs.map fun p => mkFieldLine p.1 p.2) ++ ['\n']) ++
          raw.drop idx ∧
      inject_field raw n v = raw.take idx ++ '\n' :: mkFieldLine n v ++ '\n' :: raw.drop idx ∧
      List.Sublist raw (inject_fields raw fs) ∧
      List.Sublist raw (inject_field raw n v)) ∧
    (repairCond (raw.take idx) = true →
      inject_fields raw fs =
        (raw.take idx).take (lastLineStart (raw.take idx)) ++
          (pyRStrip ((raw.take idx).drop (lastLineStart (raw.take idx))) ++ [',']) ++
          '\n' :: (joinNl (fs.map fun p => mkFieldLine p.1 p.2) ++ ['\n']) ++ raw.drop idx ∧
      inject_field raw n v =
        (raw.take idx).take (lastLineStart (raw.take idx)) ++
          (pyRStrip ((raw.take idx).drop (lastLineStart (raw.take idx))) ++ [',']) ++
          '\n' :: mkFieldLine n v ++ '\n' :: raw.drop idx ∧
      raw = (raw.take idx).take (lastLineStart (raw.take idx)) ++
        (raw.take idx).drop (lastLineStart (raw.take idx)) ++ raw.drop idx) := by
  constructor
  · intro hrc
    have h1 : inject_fields raw fs =
        raw.take idx ++ '\n' :: (joinNl (fs.map fun p => mkFieldLine p.1 p.2) ++ ['\n']) ++
          raw.drop idx := by
      rw [inject_fields_some fs h, if_neg (by simp [hrc])]
    have h2 : inject_field raw n v =
        raw.take idx ++ '\n' :: mkFieldLine n v ++ '\n' :: raw.drop idx := by
      rw [inject_field_some n v h, if_neg (by simp [hrc])]
    refine ⟨h1, h2, ?_, ?_⟩
    · rw [h1]
      conv_lhs => rw [← List.take_append_drop idx raw]
      have : raw.take idx ++ '\n' :: (joinNl (fs.map fun p => mkFieldLine p.1 p.2) ++ ['\n']) ++
          raw.drop idx =
          raw.take idx ++ (('\n' :: (joinNl (fs.map fun p => mkFieldLine p.1 p.2) ++ ['\n'])) ++
            raw.drop idx) := by
        simp
      rw [this]
      exact List.Sublist.append (List.Sublist.refl _) (List.sublist_append_right _ _)
    · rw [h2]
      conv_lhs => rw [← List.take_append_drop idx raw]
      have : raw.take idx ++ '\n' :: mkFieldLine n v ++ '\n' :: raw.drop idx =
          raw.take idx ++ (('\n' :: mkFieldLine n v ++ ['\n']) ++ raw.drop idx) := by
        simp
      rw [this]
      exact List.Sublist.append (List.Sublist.refl _) (List.sublist_append_right _ _)
  · intro hrc
    refine ⟨?_, ?_, ?_⟩
    · rw [inject_fields_some fs h, if_pos hrc, rstripNl_concat]
      simp [List.append_assoc]
    · rw [inject_field_some n v h, if_pos hrc]
      simp [List.append_assoc]
    · conv_rhs => rw [List.take_append_drop, List.take_append_drop]

theorem c3_witness :
    rfindCloser ("@a\x7bk,\n  t = \x7bT\x7d,\n\x7d".data) = some 16 ∧
    repairCond (("@a\x7bk,\n  t = \x7bT\x7d,\n\x7d".data).take 16) = false ∧
    List.Sublist ("@a\x7bk,\n  t = \x7bT\x7d,\n\x7d".data)
      (inject_fields ("@a\x7bk,\n  t = \x7bT\x7d,\n\x7d".data) [(("doi".data), ("d".data))]) :=
  ⟨by decide, by decide,
    ((c3_merger_decomposition ("@a\x7bk,\n  t = \x7bT\x7d,\n\x7d".data)
      [(("doi".data), ("d".data))] ("preview".data) ("p".data) 16 (by decide)).1
      (by decide)).2.2.1⟩

/-!
## Orchestrator claims
-/

/-- C2: when every record already has every target field (and the fetcher's
force option is unset), one run of either pipeline produces zero patches and
leaves the buffer byte-identical; hence a second run on the output again
produces zero patches. -/
theorem c2_noop_roundtrip (text : List Char)
    (cr : List Char → List Char → Option (List Char) × Option (List Char))
    (alt : List Char → List Char → Option (List Char))
    (opts : EBOpts) (resolve : Entry → Option (List Char)) (fopts : FTOpts)
    (es : List Entry)
    (heb : ∀ e ∈ parseEntriesEB text,
      dhas e.fields ("doi".data) = true ∧ dhas e.fields ("html".data) = true ∧
        dhas e.fields ("altmetric".data) = true)
    (hforce : fopts.force = false)
    (hft : parseEntriesFT text = some es)
    (hprev : ∀ e ∈ es, dhas e.fields ("preview".data) = true) :
    ebReplacements cr alt opts text = [] ∧
    ebRun true text cr alt opts = .done ⟨[], text, none, none⟩ ∧
    (∀ o, ebRun true text cr alt opts = .done o →
      ebReplacements cr alt opts o.final = []) ∧
    ftRun true text resolve fopts = .done ⟨[], text, none, none⟩ := by
  have hrep : ebReplacements cr alt opts text = [] := by
    unfold ebReplacements
    rw [List.filterMap_eq_nil_iff]
    intro e he
    obtain ⟨h1, h2, h3⟩ := heb e he
    simp [ebStep, h1, h2, h3]
  have hrun : ebRun true text cr alt opts = .done ⟨[], text, none, none⟩ := by
    unfold ebRun
    rw [hrep]
    rfl
  refine ⟨hrep, hrun, ?_, ?_⟩
  · intro o ho
    rw [hrun] at ho
    cases ho
    exact hrep
  · have hftrep : es.filterMap (ftStep resolve fopts) = [] := by
      rw [List.filterMap_eq_nil_iff]
      intro e he
      simp [ftStep, hforce, hprev e he]
    unfold ftRun
    rw [hft]
    simp [hftrep]

theorem c2_witness :
    (∀ e ∈ parseEntriesEB ("@article\x7bk,\n  doi = \x7bd\x7d,\n  html = \x7bh\x7d,\n  altmetric = \x7b1\x7d,\n  preview = \x7bp\x7d,\n\x7d".data),
      dhas e.fields ("doi".data) = true ∧ dhas e.fields ("html".data) = true ∧
        dhas e.fields ("altmetric".data) = true) ∧
    ebRun true ("@article\x7bk,\n  doi = \x7bd\x7d,\n  html = \x7bh\x7d,\n  altmetric = \x7b1\x7d,\n  preview = \x7bp\x7d,\n\x7d".data)
      (fun _ _ => (none, none)) (fun _ _ => none) ⟨false, false, []⟩ =
      .done ⟨[], ("@article\x7bk,\n  doi = \x7bd\x7d,\n  html = \x7bh\x7d,\n  altmetric = \x7b1\x7d,\n  preview = \x7bp\x7d,\n\x7d".data), none, none⟩ ∧
    ftRun true ("@article\x7bk,\n  doi = \x7bd\x7d,\n  html = \x7bh\x7d,\n  altmetric = \x7b1\x7d,\n  preview = \x7bp\x7d,\n\x7d".data)
      (fun _ => none) ⟨false, false⟩ =
      .done ⟨[], ("@article\x7bk,\n  doi = \x7bd\x7d,\n  html = \x7bh\x7d,\n  altmetric = \x7b1\x7d,\n  preview = \x7bp\x7d,\n\x7d".data), none, none⟩ := by
  have h := c2_noop_roundtrip
    ("@article\x7bk,\n  doi = \x7bd\x7d,\n  html = \x7bh\x7d,\n  altmetric = \x7b1\x7d,\n  preview = \x7bp\x7d,\n\x7d".data)
    (fun _ _ => (none, none)) (fun _ _ => none) ⟨false, false, []⟩
    (fun _ => none) ⟨false, false⟩
    (parseEntriesEB ("@article\x7bk,\n  doi = \x7bd\x7d,\n  html = \x7bh\x7d,\n  altmetric = \x7b1\x7d,\n  preview = \x7bp\x7d,\n\x7d".data))
    (by decide) (by decide) (by decide) (by decide)
  exact ⟨by decide, h.2.1, h.2.2.2⟩

theorem dhas_eq_isSome (d : List (List Char × List Char)) (k : List Char) :
    dhas d k = (dget d k).isSome := by
  unfold dhas dget
  induction d with
  | nil => rfl
  | cons p rest ih =>
    cases hpk : (p.1 == k) with
    | true => simp [List.any_cons, List.find?_cons, hpk]
    | false => simp [List.any_cons, List.find?_cons, hpk, ih]

/-- C7 (amended): the Altmetric lookup is attempted iff the `altmetric`
field is missing, the skip option is unset, and a non-empty doi is
available: either the `doi` field is present with a non-empty value, or it
is absent and the CrossRef lookup of this run returned a non-empty doi. -/
theorem c7_altmetric_guard
    (cr : List Char → List Char → Option (List Char) × Option (List Char))
    (alt : List Char → List Char → Option (List Char))
    (opts : EBOpts) (e : Entry) :
    ebAltCalled cr alt opts e =
      ((!(dhas e.fields ("altmetric".data)) && !opts.noAltmetric) &&
        (match dget e.fields ("doi".data) with
         | some val => !val.isEmpty
         | none =>
           match (cr (ebTitle e) (ebFirstAuthor e)).1 with
           | some d => !d.isEmpty
           | none => false)) := by
  unfold ebAltCalled ebStep
  have hlink := dhas_eq_isSome e.fields ("doi".data)
  cases hd : dget e.fields ("doi".data) with
  | some val =>
    have hhas : dhas e.fields ("doi".data) = true := by rw [hlink, hd]; rfl
    cases ha : dhas e.fields ("altmetric".data) <;>
      cases hno : opts.noAltmetric <;>
        cases hh : dhas e.fields ("html".data) <;>
          cases hcr : (cr (ebTitle e) (ebFirstAuthor e)).1 <;>
            simp_all [pyTruthy]
  | none =>
    have hhas : dhas e.fields ("doi".data) = false := by rw [hlink, hd]; rfl
    cases hcr : (cr (ebTitle e) (ebFirstAuthor e)).1 with
    | none =>
      cases ha : dhas e.fields ("altmetric".data) <;>
        cases hno : opts.noAltmetric <;> simp_all [pyTruthy]
    | some d2 =>
      cases hv : d2.isEmpty <;>
        cases ha : dhas e.fields ("altmetric".data) <;>
          cases hno : opts.noAltmetric <;>
            simp_all [pyTruthy, List.isEmpty_iff]

/-- C7 counterexample: a record whose `doi` field is present but empty
(`doi = {}`), with `altmetric` missing and the skip option unset.  The
claim says the lookup is attempted (the identifier is "already present in
the record's fields at scan time"); the code does not attempt it, because
Python's truthiness test `if need_alt and doi:` rejects the empty string. -/
theorem c7_counterexample :
    ((parseEntriesEB ("@article\x7bk,\n  doi = \x7b\x7d,\n  html = \x7bh\x7d,\n\x7d".data)).map
      (fun e => (dhas e.fields ("doi".data), dhas e.fields ("altmetric".data),
        ebAltCalled (fun _ _ => (some ("10.1/x".data), none)) (fun _ _ => some ("7".data))
          ⟨false, false, []⟩ e))) = [(true, false, false)] := by
  decide

/-- C8 (amended): with the dry-run flag set, neither tool ever writes the
file; the enricher prints the full resulting text exactly when at least one
patch exists, while the thumbnail fetcher prints only a static notice and
never the resulting text. -/
theorem c8_dry_run_effects (fe : Bool) (text : List Char)
    (cr : List Char → List Char → Option (List Char) × Option (List Char))
    (alt : List Char → List Char → Option (List Char))
    (opts : EBOpts) (resolve : Entry → Option (List Char)) (fopts : FTOpts)
    (hdry : opts.dryRun = true) (hfdry : fopts.dryRun = true) :
    runWritten (ebRun fe text cr alt opts) = none ∧
    (runRepsLen (ebRun fe text cr alt opts) = 0 →
      runPrinted (ebRun fe text cr alt opts) = none) ∧
    (runRepsLen (ebRun fe text cr alt opts) ≠ 0 →
      runPrinted (ebRun fe text cr alt opts) = runFinal (ebRun fe text cr alt opts)) ∧
    runWritten (ftRun fe text resolve fopts) = none ∧
    runPrinted (ftRun fe text resolve fopts) = none := by
  cases fe with
  | false => exact ⟨rfl, fun _ => rfl, fun _ => rfl, rfl, rfl⟩
  | true =>
    constructor
    · unfold ebRun
      cases hre : (ebReplacements cr alt opts text).isEmpty <;>
        simp [hre, hdry, runWritten]
    · constructor
      · intro hlen
        unfold ebRun at hlen ⊢
        cases hre : (ebReplacements cr alt opts text).isEmpty with
        | true => simp [hre, runPrinted]
        | false =>
          exfalso
          rw [List.isEmpty_eq_false] at hre
          simp [hre, hdry, runRepsLen] at hlen
      · constructor
        · intro hlen
          unfold ebRun at hlen ⊢
          cases hre : (ebReplacements cr alt opts text).isEmpty with
          | true => simp [hre, runRepsLen] at hlen
          | false => simp [hre, hdry, runPrinted, runFinal]
        · unfold ftRun
          cases hp : parseEntriesFT text with
          | none => exact ⟨rfl, rfl⟩
          | some es =>
            cases hre : (es.filterMap (ftStep resolve fopts)).isEmpty <;>
              simp [hre, hfdry, runWritten, runPrinted]

/-- C8 counterexample: a dry-run of the thumbnail fetcher that produces one
patch.  The file is not written, but the full resulting text is not printed
either (the fetcher prints only the notice `"(dry-run: bib not written)"`),
contradicting the claim that the full resulting text is printed instead. -/
theorem c8_counterexample :
    runIsDone (ftRun true ("@a\x7bk,\n  doi = \x7bd\x7d,\n\x7d".data)
      (fun _ => some ("x.png".data)) ⟨true, false⟩) = true ∧
    runRepsLen (ftRun true ("@a\x7bk,\n  doi = \x7bd\x7d,\n\x7d".data)
      (fun _ => some ("x.png".data)) ⟨true, false⟩) = 1 ∧
    runWritten (ftRun true ("@a\x7bk,\n  doi = \x7bd\x7d,\n\x7d".data)
      (fun _ => some ("x.png".data)) ⟨true, false⟩) = none ∧
    runPrinted (ftRun true ("@a\x7bk,\n  doi = \x7bd\x7d,\n\x7d".data)
      (fun _ => some ("x.png".data)) ⟨true, false⟩) = none := by
  decide

theorem c8_witness :
    (⟨true, false, ([] : List Char)⟩ : EBOpts).dryRun = true ∧
    (⟨true, false⟩ : FTOpts).dryRun = true ∧
    runWritten (ebRun true ("@a\x7bk,\n  doi = \x7bd\x7d,\n\x7d".data)
      (fun _ _ => (some ("10.1/x".data), some ("u".data))) (fun _ _ => none)
      ⟨true, false, []⟩) = none ∧
    runWritten (ftRun true ("@a\x7bk,\n  doi = \x7bd\x7d,\n\x7d".data)
      (fun _ => some ("x.png".data)) ⟨true, false⟩) = none ∧
    runPrinted (ftRun true ("@a\x7bk,\n  doi = \x7bd\x7d,\n\x7d".data)
      (fun _ => some ("x.png".data)) ⟨true, false⟩) = none := by
  have h := c8_dry_run_effects true ("@a\x7bk,\n  doi = \x7bd\x7d,\n\x7d".data)
    (fun _ _ => (some ("10.1/x".data), some ("u".data))) (fun _ _ => none)
    ⟨true, false, []⟩ (fun _ => some ("x.png".data)) ⟨true, false⟩ rfl rfl
  exact ⟨rfl, rfl, h.1, h.2.2.2.1, h.2.2.2.2⟩

/-- C9: the enricher exits zero on every completed run whatever the lookups
return, and non-zero exactly when the input file is missing; but the
thumbnail fetcher also exits non-zero on an existing file containing a
record whose key scan fails (`@misc {nokey` with no comma), where
`KEY_RE.search(raw).group(1)` raises `AttributeError`. -/
theorem c9_fetch_crash_eval :
    (∀ (t : List Char) cr alt (opts : EBOpts),
      runIsDone (ebRun true t cr alt opts) = true) ∧
    ftRun true ("@misc \x7bnokey\n\x7d".data) (fun _ => none) ⟨false, false⟩ =
      .fail ("AttributeError".data) ∧
    ebRun true ("@misc \x7bnokey\n\x7d".data) (fun _ _ => (none, none)) (fun _ _ => none)
      ⟨false, false, []⟩ =
      .done ⟨[], ("@misc \x7bnokey\n\x7d".data), none, none⟩ ∧
    ebRun false ("@misc \x7bnokey\n\x7d".data) (fun _ _ => (none, none)) (fun _ _ => none)
      ⟨false, false, []⟩ = .fail ("File not found".data) ∧
    ftRun false ("@misc \x7bnokey\n\x7d".data) (fun _ => none) ⟨false, false⟩ =
      .fail ("File not found".data) := by
  refine ⟨?_, by decide, by decide, by decide, by decide⟩
  intro t cr alt opts
  unfold ebRun
  cases hre : (ebReplacements cr alt opts t).isEmpty <;>
    cases hdr : opts.dryRun <;> simp [hre, hdr, runIsDone]

/-- C5 counterexample: an entry whose key scan fails (no comma after the
key).  The enricher's scanner does not omit it — it emits it with key
`"unknown"` — and the thumbnail fetcher's scanner raises instead of
returning a record list. -/
theorem c5_counterexample :
    searchKey ("@misc \x7bnokey\n\x7d".data) = none ∧
    parseEntriesEB ("@misc \x7bnokey\n\x7d".data) =
      [{ key := ("unknown".data), raw := ("@misc \x7bnokey\n\x7d".data), fields := [],
         span := (0, 14) }] ∧
    parseEntriesFT ("@misc \x7bnokey\n\x7d".data) = none := by
  decide

theorem mkEntriesFT_spec (l : List (Nat × List Char)) :
    ((mkEntriesFT l).isSome = true ↔ ∀ p ∈ l, (searchKey p.2).isSome = true) ∧
    (∀ es, mkEntriesFT l = some es → es.map (fun e => e.raw) = l.map (fun p => p.2)) := by
  induction l with
  | nil =>
    constructor
    · simp [mkEntriesFT]
    · intro es hes
      simp [mkEntriesFT] at hes
      simp [← hes]
  | cons p rest ih =>
    cases hk : searchKey p.2 with
    | none =>
      have hnone : mkEntriesFT (p :: rest) = none := by
        unfold mkEntriesFT mkEntryFT
        rw [hk]
      constructor
      · rw [hnone]
        simp only [Option.isSome_none, Bool.false_eq_true, false_iff]
        intro hall
        have := hall p (List.mem_cons_self p rest)
        rw [hk] at this
        simp at this
      · intro es hes
        rw [hnone] at hes
        cases hes
    | some k =>
      have hfst : mkEntryFT p = some
          { key := k, raw := p.2, fields := buildFields p.2,
            span := (p.1, p.1 + p.2.length) } := by
        unfold mkEntryFT
        rw [hk]
      cases hrest : mkEntriesFT rest with
      | none =>
        have hnone : mkEntriesFT (p :: rest) = none := by
          unfold mkEntriesFT
          rw [hfst, hrest]
        constructor
        · rw [hnone]
          simp only [Option.isSome_none, Bool.false_eq_true, false_iff]
          intro hall
          have : (mkEntriesFT rest).isSome = true := by
            rw [ih.1]
            intro q hq
            exact hall q (List.mem_cons_of_mem p hq)
          rw [hrest] at this
          simp at this
        · intro es hes
          rw [hnone] at hes
          cases hes
      | some es2 =>
        have hsome : mkEntriesFT (p :: rest) = some
            ({ key := k, raw := p.2, fields := buildFields p.2,
                span := (p.1, p.1 + p.2.length) } :: es2) := by
          unfold mkEntriesFT
          rw [hfst, hrest]
        constructor
        · rw [hsome]
          simp only [Option.isSome_some, true_iff]
          intro q hq
          rcases List.mem_cons.mp hq with hq1 | hq2
          · rw [hq1, hk]
            rfl
          · have := (ih.1).mp (by rw [hrest]; rfl) q hq2
            exact this
        · intro es hes
          rw [hsome] at hes
          cases hes
          simp only [List.map_cons]
          rw [ih.2 es2 hrest]

/-- C5 (amended): the enricher's scanner is a pure total function; a
candidate whose closing-brace scan fails is simply not an `ENTRY_RE` match,
but a candidate whose key scan fails is still emitted, with key
`"unknown"`, rather than omitted — while the thumbnail fetcher's scanner
raises on such a candidate (returns no record list at all), succeeding
exactly when every scanned record's key scan succeeds, in which case both
scanners see the same record texts. -/
theorem c5_scanner_totality (text : List Char) :
    (∀ e ∈ parseEntriesEB text, searchKey e.raw = none → e.key = ("unknown".data)) ∧
    (∀ e ∈ parseEntriesEB text, ∀ k, searchKey e.raw = some k → e.key = k) ∧
    ((parseEntriesFT text).isSome = true ↔
      ∀ e ∈ parseEntriesEB text, (searchKey e.raw).isSome = true) ∧
    (∀ es, parseEntriesFT text = some es →
      es.map (fun e => e.raw) = (parseEntriesEB text).map (fun e => e.raw)) := by
  have haux := mkEntriesFT_spec (findEntries text 0)
  refine ⟨?_, ?_, ?_, ?_⟩
  · intro e he hk
    obtain ⟨q, hq, rfl⟩ := List.mem_map.mp he
    simp only [mkEntryEB] at hk ⊢
    rw [hk]
    rfl
  · intro e he k hk
    obtain ⟨q, hq, rfl⟩ := List.mem_map.mp he
    simp only [mkEntryEB] at hk ⊢
    rw [hk]
    rfl
  · rw [show parseEntriesFT text = mkEntriesFT (findEntries text 0) from rfl, haux.1]
    constructor
    · intro hall e he
      obtain ⟨q, hq, rfl⟩ := List.mem_map.mp he
      exact hall q hq
    · intro hall q hq
      exact hall (mkEntryEB q) (List.mem_map_of_mem mkEntryEB hq)
  · intro es hes
    rw [haux.2 es hes]
    unfold parseEntriesEB
    rw [List.map_map]
    rfl

/-!
## C1: locality of the entry regex

An `ENTRY_RE` match attempt can never look past the first `@` of whatever
follows, because `[^@]*?` fails there; these lemmas make that precise.
-/

theorem takeWhile_append_stop {p : Char → Bool} {a : Char} (hp : p a = false)
    (xs ys : List Char) :
    (xs ++ a :: ys).takeWhile p = xs.takeWhile p := by
  induction xs with
  | nil => simp [List.takeWhile_cons, hp]
  | cons c xs ih =>
    simp only [List.cons_append, List.takeWhile_cons]
    cases hc : p c <;> simp [ih]

theorem dropWhile_append_stop {p : Char → Bool} {a : Char} (hp : p a = false)
    (xs ys : List Char) :
    (xs ++ a :: ys).dropWhile p = xs.dropWhile p ++ a :: ys := by
  induction xs with
  | nil => simp [List.dropWhile_cons, hp]
  | cons c xs ih =>
    simp only [List.cons_append, List.dropWhile_cons]
    cases hc : p c <;> simp [ih]

theorem takeWhile_append_of_ne {p : Char → Bool} (xs ys : List Char)
    (h : xs.dropWhile p ≠ []) :
    (xs ++ ys).takeWhile p = xs.takeWhile p := by
  induction xs with
  | nil => simp at h
  | cons c xs ih =>
    simp only [List.cons_append, List.takeWhile_cons]
    cases hc : p c with
    | true =>
      rw [List.dropWhile_cons, hc] at h
      simp only [if_pos rfl] at h
      simp [ih h]
    | false => simp

theorem dropWhile_append_of_ne {p : Char → Bool} (xs ys : List Char)
    (h : xs.dropWhile p ≠ []) :
    (xs ++ ys).dropWhile p = xs.dropWhile p ++ ys := by
  induction xs with
  | nil => simp at h
  | cons c xs ih =>
    simp only [List.cons_append, List.dropWhile_cons]
    cases hc : p c with
    | true =>
      rw [List.dropWhile_cons, hc] at h
      simp only [if_pos rfl] at h
      simp [ih h]
    | false => simp

theorem takeWhile_append_of_lt {p : Char → Bool} (xs ys : List Char)
    (h : ((xs ++ ys).takeWhile p).length < xs.length) :
    (xs ++ ys).takeWhile p = xs.takeWhile p ∧
    (xs ++ ys).dropWhile p = xs.dropWhile p ++ ys := by
  induction xs with
  | nil => simp at h
  | cons c xs ih =>
    simp only [List.cons_append, List.takeWhile_cons, List.dropWhile_cons] at h ⊢
    cases hc : p c with
    | true =>
      simp only [hc, if_true, List.length_cons] at h
      have := ih (by omega)
      simp [this.1, this.2]
    | false => simp

theorem scanBody_cons (c : Char) (rest : List Char) :
    scanBody (c :: rest) =
      if c = '\n' ∧ rest.head? = some '}' then some 2
      else if c = '@' then none
      else (scanBody rest).map (· + 1) := rfl

theorem scanBody_le {l : List Char} {k : Nat} (h : scanBody l = some k) :
    2 ≤ k ∧ k ≤ l.length := by
  induction l generalizing k with
  | nil => simp [scanBody] at h
  | cons c rest ih =>
    unfold scanBody at h
    by_cases h1 : c = '\n' ∧ rest.head? = some '}'
    · rw [if_pos h1] at h
      cases h
      cases rest with
      | nil => simp at h1
      | cons r rs => simp
    · rw [if_neg h1] at h
      by_cases h2 : c = '@'
      · rw [if_pos h2] at h
        cases h
      · rw [if_neg h2] at h
        cases hs : scanBody rest with
        | none => rw [hs] at h; cases h
        | some k2 =>
          rw [hs] at h
          cases h
          have := ih hs
          simp only [List.length_cons]
          omega

theorem scanBody_some_append {xs ys : List Char} {k : Nat} (h : scanBody xs = some k) :
    scanBody (xs ++ ys) = some k := by
  induction xs generalizing k with
  | nil => simp [scanBody] at h
  | cons c rest ih =>
    rw [scanBody_cons] at h
    rw [List.cons_append, scanBody_cons]
    by_cases h1 : c = '\n' ∧ rest.head? = some '}'
    · have h1b : c = '\n' ∧ (rest ++ ys).head? = some '}' := by
        obtain ⟨ha, hb⟩ := h1
        cases rest with
        | nil => simp at hb
        | cons r rs => exact ⟨ha, by simpa using hb⟩
      rw [if_pos h1] at h
      rw [if_pos h1b]
      exact h
    · by_cases hnil : rest = []
      · subst hnil
        rw [if_neg h1] at h
        by_cases h2 : c = '@'
        · rw [if_pos h2] at h; cases h
        · rw [if_neg h2] at h; simp [scanBody] at h
      · have h1b : ¬ (c = '\n' ∧ (rest ++ ys).head? = some '}') := by
          intro hb2
          apply h1
          refine ⟨hb2.1, ?_⟩
          have hb := hb2.2
          cases rest with
          | nil => exact absurd rfl hnil
          | cons r rs => simpa using hb
        rw [if_neg h1] at h
        rw [if_neg h1b]
        by_cases h2 : c = '@'
        · rw [if_pos h2] at h; cases h
        · rw [if_neg h2] at h ⊢
          cases hs : scanBody rest with
          | none => rw [hs] at h; cases h
          | some k2 =>
            rw [hs] at h
            rw [ih hs]
            exact h

theorem scanBody_some_of_append {xs ys : List Char} {k : Nat}
    (h : scanBody (xs ++ ys) = some k) (hk : k ≤ xs.length) :
    scanBody xs = some k := by
  induction xs generalizing k with
  | nil =>
    have := scanBody_le h
    simp at hk
    omega
  | cons c rest ih =>
    rw [List.cons_append, scanBody_cons] at h
    rw [scanBody_cons]
    by_cases h1 : c = '\n' ∧ (rest ++ ys).head? = some '}'
    · rw [if_pos h1] at h
      cases h
      simp only [List.length_cons] at hk
      cases rest with
      | nil => simp at hk
      | cons r rs =>
        have h1a : c = '\n' ∧ (r :: rs).head? = some '}' := by
          refine ⟨h1.1, ?_⟩
          have := h1.2
          simpa using this
        rw [if_pos h1a]
    · rw [if_neg h1] at h
      by_cases h2 : c = '@'
      · rw [if_pos h2] at h; cases h
      · rw [if_neg h2] at h
        cases hs : scanBody (rest ++ ys) with
        | none => rw [hs] at h; cases h
        | some k2 =>
          rw [hs] at h
          cases h
          simp only [List.length_cons] at hk
          have hrest := ih hs (by omega)
          have hrne : rest ≠ [] := by
            intro hn
            subst hn
            simp [scanBody] at hrest
          have h1a : ¬ (c = '\n' ∧ rest.head? = some '}') := by
            intro hb2
            apply h1
            refine ⟨hb2.1, ?_⟩
            have hb := hb2.2
            cases rest with
            | nil => exact absurd rfl hrne
            | cons r rs => simpa using hb
          rw [if_neg h1a, if_neg h2, hrest]
          rfl

theorem scanBody_append_at (xs ys ys' : List Char) :
    scanBody (xs ++ '@' :: ys) = scanBody (xs ++ '@' :: ys') := by
  induction xs with
  | nil => simp [scanBody_cons]
  | cons c rest ih =>
    rw [List.cons_append, List.cons_append, scanBody_cons, scanBody_cons]
    have hh : (rest ++ '@' :: ys).head? = (rest ++ '@' :: ys').head? := by
      cases rest <;> rfl
    rw [hh]
    by_cases h1 : c = '\n' ∧ (rest ++ '@' :: ys').head? = some '}'
    · rw [if_pos h1, if_pos h1]
    · rw [if_neg h1, if_neg h1]
      by_cases h2 : c = '@'
      · rw [if_pos h2, if_pos h2]
      · rw [if_neg h2, if_neg h2, ih]

theorem matchAfterAt_eq (l : List Char) :
    matchAfterAt l =
      if l.takeWhile isWordChar = [] then none
      else if ((l.dropWhile isWordChar).dropWhile pySpace).head? = some '{' then
        match scanBody ((l.dropWhile isWordChar).dropWhile pySpace).tail with
        | some k => some ((l.takeWhile isWordChar).length +
            ((l.dropWhile isWordChar).takeWhile pySpace).length + 1 + k)
        | none => none
      else none := rfl

theorem matchAfterAt_le {l : List Char} {m : Nat} (h : matchAfterAt l = some m) :
    m ≤ l.length := by
  rw [matchAfterAt_eq] at h
  by_cases h1 : l.takeWhile isWordChar = []
  · rw [if_pos h1] at h; cases h
  · rw [if_neg h1] at h
    by_cases h2 : ((l.dropWhile isWordChar).dropWhile pySpace).head? = some '{'
    · rw [if_pos h2] at h
      cases hs : scanBody ((l.dropWhile isWordChar).dropWhile pySpace).tail with
      | none => rw [hs] at h; cases h
      | some k =>
        rw [hs] at h
        cases h
        obtain ⟨zc, zt, hz⟩ : ∃ zc zt,
            (l.dropWhile isWordChar).dropWhile pySpace = zc :: zt := by
          cases hzz : (l.dropWhile isWordChar).dropWhile pySpace with
          | nil => rw [hzz] at h2; cases h2
          | cons a b => exact ⟨a, b, rfl⟩
        have e1 : (l.takeWhile isWordChar).length + (l.dropWhile isWordChar).length
            = l.length := by
          rw [← List.length_append, List.takeWhile_append_dropWhile]
        have e2 : ((l.dropWhile isWordChar).takeWhile pySpace).length +
            ((l.dropWhile isWordChar).dropWhile pySpace).length
            = (l.dropWhile isWordChar).length := by
          rw [← List.length_append, List.takeWhile_append_dropWhile]
        have e3 : ((l.dropWhile isWordChar).dropWhile pySpace).length = zt.length + 1 := by
          rw [hz]; simp
        have e4 : k ≤ zt.length := by
          have := (scanBody_le hs).2
          rw [hz] at this
          simpa using this
        omega
    · rw [if_neg h2] at h; cases h

theorem matchAfterAt_some_append {xs : List Char} {m : Nat} (ys : List Char)
    (h : matchAfterAt xs = some m) :
    matchAfterAt (xs ++ ys) = some m := by
  rw [matchAfterAt_eq] at h
  by_cases h1 : xs.takeWhile isWordChar = []
  · rw [if_pos h1] at h; cases h
  · rw [if_neg h1] at h
    by_cases h2 : ((xs.dropWhile isWordChar).dropWhile pySpace).head? = some '{'
    · rw [if_pos h2] at h
      obtain ⟨zc, zt, hz⟩ : ∃ zc zt,
          (xs.dropWhile isWordChar).dropWhile pySpace = zc :: zt := by
        cases hzz : (xs.dropWhile isWordChar).dropWhile pySpace with
        | nil => rw [hzz] at h2; cases h2
        | cons a b => exact ⟨a, b, rfl⟩
      have hdw_ne : xs.dropWhile isWordChar ≠ [] := by
        intro hn
        rw [hn] at hz
        simp [List.dropWhile] at hz
      have hdw2_ne : (xs.dropWhile isWordChar).dropWhile pySpace ≠ [] := by
        rw [hz]; simp
      rw [matchAfterAt_eq]
      rw [takeWhile_append_of_ne xs ys hdw_ne, if_neg h1,
        dropWhile_append_of_ne xs ys hdw_ne,
        dropWhile_append_of_ne _ ys hdw2_ne,
        takeWhile_append_of_ne _ ys hdw2_ne]
      rw [hz] at h2 ⊢
      simp only [List.cons_append, List.head?_cons, List.tail_cons] at h2 ⊢
      rw [if_pos h2]
      cases hs : scanBody zt with
      | none => rw [hz] at h; simp only [List.tail_cons] at h; rw [hs] at h; cases h
      | some k =>
        rw [scanBody_some_append hs]
        rw [hz] at h
        simp only [List.tail_cons] at h
        rw [hs] at h
        exact h
    · rw [if_neg h2] at h; cases h

theorem matchAfterAt_front {u v : List Char}
    (h : matchAfterAt (u ++ v) = some u.length) :
    matchAfterAt u = some u.length := by
  rw [matchAfterAt_eq] at h
  by_cases h1 : (u ++ v).takeWhile isWordChar = []
  · rw [if_pos h1] at h; cases h
  rw [if_neg h1] at h
  by_cases h2 : (((u ++ v).dropWhile isWordChar).dropWhile pySpace).head? = some '{'
  case neg => rw [if_neg h2] at h; cases h
  rw [if_pos h2] at h
  cases hs : scanBody (((u ++ v).dropWhile isWordChar).dropWhile pySpace).tail with
  | none => rw [hs] at h; cases h
  | some k =>
  rw [hs] at h
  injection h with h
  have hw_lt : ((u ++ v).takeWhile isWordChar).length < u.length := by omega
  obtain ⟨hw_eq, hdw_eq⟩ := takeWhile_append_of_lt u v hw_lt
  rw [hdw_eq] at h h2 hs
  rw [hw_eq] at h h1
  have eU : (u.takeWhile isWordChar).length + (u.dropWhile isWordChar).length
      = u.length := by
    rw [← List.length_append, List.takeWhile_append_dropWhile]
  have hsp_lt : ((u.dropWhile isWordChar ++ v).takeWhile pySpace).length <
      (u.dropWhile isWordChar).length := by omega
  obtain ⟨hsp_eq, hz2_eq⟩ := takeWhile_append_of_lt (u.dropWhile isWordChar) v hsp_lt
  rw [hz2_eq] at h2 hs
  rw [hsp_eq] at h
  have eV : ((u.dropWhile isWordChar).takeWhile pySpace).length +
      ((u.dropWhile isWordChar).dropWhile pySpace).length
      = (u.dropWhile isWordChar).length := by
    rw [← List.length_append, List.takeWhile_append_dropWhile]
  have hzlen : ((u.dropWhile isWordChar).dropWhile pySpace).length = 1 + k := by omega
  obtain ⟨zu, hzu1, hzc⟩ : ∃ zu, (u.dropWhile isWordChar).dropWhile pySpace = '{' :: zu ∧
      ((u.dropWhile isWordChar).dropWhile pySpace ++ v).tail = zu ++ v := by
    cases hzz : (u.dropWhile isWordChar).dropWhile pySpace with
    | nil =>
      rw [hzz] at hzlen
      simp only [List.length_nil] at hzlen
      exact absurd hzlen (by omega)
    | cons a b =>
      rw [hzz] at h2
      simp only [List.cons_append, List.head?_cons, Option.some.injEq] at h2
      exact ⟨b, by rw [h2], by simp⟩
  rw [hzc] at hs
  have hk_le : k ≤ zu.length := by
    rw [hzu1] at hzlen
    simp only [List.length_cons] at hzlen
    omega
  have hsbu : scanBody zu = some k := scanBody_some_of_append hs hk_le
  rw [matchAfterAt_eq, if_neg h1, hzu1]
  simp only [List.head?_cons, Option.some.injEq, if_pos rfl, if_true, List.tail_cons, hsbu]
  rw [hzu1] at hzlen
  simp only [List.length_cons] at hzlen
  omega

theorem matchAfterAt_append_at (xs ys ys' : List Char) :
    matchAfterAt (xs ++ '@' :: ys) = matchAfterAt (xs ++ '@' :: ys') := by
  have hw : isWordChar '@' = false := rfl
  have hs : pySpace '@' = false := rfl
  rw [matchAfterAt_eq, matchAfterAt_eq]
  rw [takeWhile_append_stop hw, takeWhile_append_stop hw,
    dropWhile_append_stop hw, dropWhile_append_stop hw,
    takeWhile_append_stop hs, takeWhile_append_stop hs,
    dropWhile_append_stop hs, dropWhile_append_stop hs]
  cases hz : (xs.dropWhile isWordChar).dropWhile pySpace with
  | nil => simp
  | cons zc zt =>
    simp only [List.cons_append, List.head?_cons, List.tail_cons]
    by_cases hzc : zc = '{'
    · rw [scanBody_append_at zt ys ys']
    · simp [hzc]

theorem entryMatchAt_cons (c : Char) (rest : List Char) :
    entryMatchAt (c :: rest) =
      if c = '@' then (matchAfterAt rest).map (· + 1) else none := rfl

theorem entryMatchAt_bounds {l : List Char} {n : Nat} (h : entryMatchAt l = some n) :
    1 ≤ n ∧ n ≤ l.length := by
  cases l with
  | nil => simp [entryMatchAt] at h
  | cons c rest =>
    rw [entryMatchAt_cons] at h
    by_cases hc : c = '@'
    · rw [if_pos hc] at h
      cases hm : matchAfterAt rest with
      | none => rw [hm] at h; cases h
      | some m =>
        rw [hm] at h
        cases h
        have := matchAfterAt_le hm
        simp only [List.length_cons]
        omega
    · rw [if_neg hc] at h; cases h

theorem entryFull_shape {r : List Char} (h : entryFull r) :
    ∃ r2, r = '@' :: r2 ∧ matchAfterAt r2 = some r2.length := by
  unfold entryFull at h
  cases r with
  | nil => simp [entryMatchAt] at h
  | cons c rest =>
    rw [entryMatchAt_cons] at h
    by_cases hc : c = '@'
    · rw [if_pos hc] at h
      cases hm : matchAfterAt rest with
      | none => rw [hm] at h; cases h
      | some m =>
        rw [hm] at h
        have hmr : m = rest.length := by
          have h2 : m + 1 = rest.length + 1 := by simpa using h
          omega
        exact ⟨rest, by rw [hc], by rw [hm, hmr]⟩
    · rw [if_neg hc] at h; cases h

theorem entryFull_extend {r : List Char} (ys : List Char) (h : entryFull r) :
    entryMatchAt (r ++ ys) = some r.length := by
  obtain ⟨r2, hr, hm⟩ := entryFull_shape h
  subst hr
  rw [List.cons_append, entryMatchAt_cons, if_pos rfl,
    matchAfterAt_some_append ys hm]
  simp

theorem entryMatchAt_front {u v : List Char}
    (h : entryMatchAt (u ++ v) = some u.length) :
    entryMatchAt u = some u.length := by
  cases u with
  | nil =>
    exfalso
    have := (entryMatchAt_bounds h).1
    simp at this
  | cons c rest =>
    rw [List.cons_append, entryMatchAt_cons] at h
    rw [entryMatchAt_cons]
    by_cases hc : c = '@'
    · rw [if_pos hc] at h
      rw [if_pos hc]
      cases hm : matchAfterAt (rest ++ v) with
      | none => rw [hm] at h; cases h
      | some m =>
        rw [hm] at h
        have hmr : m = rest.length := by
          have h2 : m + 1 = rest.length + 1 := by simpa using h
          omega
        subst hmr
        rw [matchAfterAt_front hm]
        simp
    · rw [if_neg hc] at h; cases h

theorem entryMatchAt_take {l : List Char} {n : Nat} (h : entryMatchAt l = some n) :
    entryFull (l.take n) := by
  have hb := entryMatchAt_bounds h
  have hlen : (l.take n).length = n := by
    rw [List.length_take]
    omega
  unfold entryFull
  apply entryMatchAt_front (v := l.drop n)
  rw [List.take_append_drop, hlen]
  exact h

theorem entryMatchAt_append_at (c : Char) (xs ys ys' : List Char) :
    entryMatchAt ((c :: xs) ++ '@' :: ys) = entryMatchAt ((c :: xs) ++ '@' :: ys') := by
  rw [List.cons_append, List.cons_append, entryMatchAt_cons, entryMatchAt_cons]
  by_cases hc : c = '@'
  · rw [if_pos hc, if_pos hc, matchAfterAt_append_at xs ys ys']
  · rw [if_neg hc, if_neg hc]

/-!
## C1: the scan over an assembled buffer
-/

theorem findAux_skip (a b : List Char) (pos : Nat) :
    findEntriesAux (a ++ b) pos a.length = findEntriesAux b (pos + a.length) 0 := by
  induction a generalizing pos with
  | nil => simp
  | cons c a ih =>
    show findEntriesAux (a ++ b) (pos + 1) a.length = _
    rw [ih (pos + 1)]
    congr 1
    simp only [List.length_cons]
    omega

theorem findAux_cons_none {c : Char} {rest : List Char} (pos : Nat)
    (h : entryMatchAt (c :: rest) = none) :
    findEntriesAux (c :: rest) pos 0 = findEntriesAux rest (pos + 1) 0 := by
  show (match entryMatchAt (c :: rest) with
    | some n => (pos, (c :: rest).take n) :: findEntriesAux rest (pos + 1) (n - 1)
    | none => findEntriesAux rest (pos + 1) 0) = _
  rw [h]

theorem findAux_skip_of_len {a : List Char} {k : Nat} (b : List Char) (pos : Nat)
    (hk : a.length = k) :
    findEntriesAux (a ++ b) pos k = findEntriesAux b (pos + k) 0 := by
  subst hk
  exact findAux_skip a b pos

theorem findAux_cons_some {c : Char} {rest : List Char} {n : Nat} (pos : Nat)
    (h : entryMatchAt (c :: rest) = some n) :
    findEntriesAux (c :: rest) pos 0 =
      (pos, (c :: rest).take n) :: findEntriesAux ((c :: rest).drop n) (pos + n) 0 := by
  have hb := entryMatchAt_bounds h
  simp only [List.length_cons] at hb
  have hstep : findEntriesAux (c :: rest) pos 0 =
      (pos, (c :: rest).take n) :: findEntriesAux rest (pos + 1) (n - 1) := by
    show (match entryMatchAt (c :: rest) with
      | some n => (pos, (c :: rest).take n) :: findEntriesAux rest (pos + 1) (n - 1)
      | none => findEntriesAux rest (pos + 1) 0) = _
    rw [h]
  rw [hstep]
  congr 1
  have hlen : (rest.take (n - 1)).length = n - 1 := by
    rw [List.length_take]
    omega
  conv_lhs => rw [show rest = rest.take (n - 1) ++ rest.drop (n - 1) from
    (List.take_append_drop _ _).symm]
  rw [findAux_skip_of_len (rest.drop (n - 1)) (pos + 1) hlen]
  have hdrop : (c :: rest).drop n = rest.drop (n - 1) := by
    cases n with
    | zero => omega
    | succ m => simp
  rw [hdrop]
  congr 1
  omega

theorem findAux_entry {r : List Char} (tail : List Char) (pos : Nat)
    (h : entryMatchAt (r ++ tail) = some r.length) (hne : r ≠ []) :
    findEntriesAux (r ++ tail) pos 0 = (pos, r) :: findEntriesAux tail (pos + r.length) 0 := by
  cases r with
  | nil => exact absurd rfl hne
  | cons rc rrest =>
    rw [List.cons_append] at h ⊢
    rw [findAux_cons_some pos h]
    rw [← List.cons_append, List.take_left, List.drop_left]

theorem findAux_gapEnd {g : List Char} (hg : gapEndOK g) (pos : Nat) :
    findEntriesAux g pos 0 = [] := by
  induction g generalizing pos with
  | nil => rfl
  | cons c g ih =>
    rw [findAux_cons_none pos (hg 0)]
    exact ih (fun i => hg (i + 1)) (pos + 1)

theorem findAux_gapMid {g : List Char} (hg : gapMidOK g) {r : List Char} (tail : List Char)
    (hr : ∃ r2, r = '@' :: r2) (pos : Nat) :
    findEntriesAux (g ++ (r ++ tail)) pos 0 = findEntriesAux (r ++ tail) (pos + g.length) 0 := by
  obtain ⟨r2, hr2⟩ := hr
  induction g generalizing pos with
  | nil => simp
  | cons c g ih =>
    have hnone : entryMatchAt ((c :: g) ++ (r ++ tail)) = none := by
      have he : (c :: g) ++ (r ++ tail) = (c :: g) ++ '@' :: (r2 ++ tail) := by
        rw [hr2]
        simp
      rw [he, entryMatchAt_append_at c g (r2 ++ tail) []]
      have := hg 0
      simpa using this
    rw [List.cons_append, findAux_cons_none pos (by rw [← List.cons_append]; exact hnone)]
    rw [ih (fun i => hg (i + 1)) (pos + 1)]
    congr 1
    simp only [List.length_cons]
    omega

theorem findAux_assemble (pairs : List (List Char × List Char)) (gfin : List Char)
    (pos : Nat)
    (hp : ∀ pr ∈ pairs, gapMidOK pr.1 ∧ entryFull pr.2)
    (he : gapEndOK gfin) :
    findEntriesAux (assemble pairs gfin) pos 0 = spansOf pairs pos := by
  induction pairs generalizing pos with
  | nil => exact findAux_gapEnd he pos
  | cons pr pairs ih =>
    obtain ⟨g, r⟩ := pr
    have hpr := hp (g, r) (List.mem_cons_self _ _)
    have hshape := entryFull_shape hpr.2
    have hne : r ≠ [] := by
      obtain ⟨r2, hrr, _⟩ := hshape
      intro h0
      rw [show (g, r).2 = r from rfl, h0] at hrr
      cases hrr
    show findEntriesAux (g ++ (r ++ assemble pairs gfin)) pos 0 = _
    rw [findAux_gapMid hpr.1 (assemble pairs gfin) ⟨hshape.choose, hshape.choose_spec.1⟩ pos]
    rw [findAux_entry (assemble pairs gfin) (pos + g.length)
      (entryFull_extend _ hpr.2) hne]
    show _ = (pos + g.length, r) :: spansOf pairs (pos + g.length + r.length)
    congr 1
    exact ih (pos + g.length + r.length) (fun q hq => hp q (List.mem_cons_of_mem _ hq))

theorem gapEndOK_nil : gapEndOK [] := by
  intro i
  simp [entryMatchAt]

theorem gapMidOK_nil : gapMidOK [] := by
  intro i
  simp
  decide

theorem exists_decomp_fuel : ∀ (fuel : Nat) (l : List Char), l.length ≤ fuel → ∀ (pos : Nat),
    ∃ pairs gfin, l = assemble pairs gfin ∧
      (∀ pr ∈ pairs, gapMidOK pr.1 ∧ entryFull pr.2) ∧ gapEndOK gfin ∧
      findEntriesAux l pos 0 = spansOf pairs pos := by
  intro fuel
  induction fuel with
  | zero =>
    intro l hl pos
    have hnil : l = [] := by
      cases l with
      | nil => rfl
      | cons c rest => simp at hl
    subst hnil
    exact ⟨[], [], rfl, by simp, gapEndOK_nil, rfl⟩
  | succ fuel ih =>
    intro l hl pos
    cases l with
    | nil => exact ⟨[], [], rfl, by simp, gapEndOK_nil, rfl⟩
    | cons c rest =>
      simp only [List.length_cons] at hl
      cases hm : entryMatchAt (c :: rest) with
      | some n =>
        have hb := entryMatchAt_bounds hm
        simp only [List.length_cons] at hb
        have hdl : ((c :: rest).drop n).length ≤ fuel := by
          rw [List.length_drop]
          simp only [List.length_cons]
          omega
        obtain ⟨pairs, gfin, hassm, hprops, hend, hspans⟩ :=
          ih ((c :: rest).drop n) hdl (pos + n)
        have hlen : ((c :: rest).take n).length = n := by
          rw [List.length_take]
          simp only [List.length_cons]
          omega
        refine ⟨([], (c :: rest).take n) :: pairs, gfin, ?_, ?_, hend, ?_⟩
        · show c :: rest = [] ++ ((c :: rest).take n ++ assemble pairs gfin)
          rw [← hassm, List.nil_append, List.take_append_drop]
        · intro pr hpr
          rcases List.mem_cons.mp hpr with h1 | h2
          · rw [h1]
            exact ⟨gapMidOK_nil, entryMatchAt_take hm⟩
          · exact hprops pr h2
        · rw [findAux_cons_some pos hm, hspans]
          show _ = (pos + ([] : List Char).length, (c :: rest).take n) ::
            spansOf pairs (pos + ([] : List Char).length + ((c :: rest).take n).length)
          rw [hlen]
          simp
      | none =>
        have hdl : rest.length ≤ fuel := by omega
        obtain ⟨pairs, gfin, hassm, hprops, hend, hspans⟩ := ih rest hdl (pos + 1)
        cases pairs with
        | nil =>
          have hgf : rest = gfin := hassm
          refine ⟨[], c :: gfin, ?_, by simp, ?_, ?_⟩
          · show c :: rest = c :: gfin
            rw [hgf]
          · intro i
            cases i with
            | zero =>
              show entryMatchAt (c :: gfin) = none
              rw [← hgf]
              exact hm
            | succ j =>
              show entryMatchAt (gfin.drop j) = none
              exact hend j
          · rw [findAux_cons_none pos hm, hspans]
            rfl
        | cons pr pairs2 =>
          obtain ⟨g, r⟩ := pr
          have hpr := hprops (g, r) (List.mem_cons_self _ _)
          obtain ⟨r2, hr2, _⟩ := entryFull_shape hpr.2
          have hr2' : r = '@' :: r2 := hr2
          have hrest : rest = g ++ (r ++ assemble pairs2 gfin) := hassm
          refine ⟨(c :: g, r) :: pairs2, gfin, ?_, ?_, hend, ?_⟩
          · show c :: rest = (c :: g) ++ (r ++ assemble pairs2 gfin)
            rw [hrest, List.cons_append]
          · intro q hq
            rcases List.mem_cons.mp hq with h1 | h2
            · rw [h1]
              refine ⟨?_, hpr.2⟩
              intro i
              cases i with
              | zero =>
                show entryMatchAt ((c :: g) ++ ['@']) = none
                have hrw : c :: rest = (c :: g) ++ '@' :: (r2 ++ assemble pairs2 gfin) := by
                  rw [hrest, hr2']
                  simp
                rw [entryMatchAt_append_at c g [] (r2 ++ assemble pairs2 gfin), ← hrw]
                exact hm
              | succ j =>
                show entryMatchAt (g.drop j ++ ['@']) = none
                exact hpr.1 j
            · exact hprops q (List.mem_cons_of_mem _ h2)
          · rw [findAux_cons_none pos hm, hspans]
            show (pos + 1 + g.length, r) :: spansOf pairs2 (pos + 1 + g.length + r.length) =
              (pos + (c :: g).length, r) :: spansOf pairs2 (pos + (c :: g).length + r.length)
            simp only [List.length_cons]
            congr 2
            · omega
            · congr 1
              omega

theorem exists_decomp (l : List Char) (pos : Nat) :
    ∃ pairs gfin, l = assemble pairs gfin ∧
      (∀ pr ∈ pairs, gapMidOK pr.1 ∧ entryFull pr.2) ∧ gapEndOK gfin ∧
      findEntriesAux l pos 0 = spansOf pairs pos :=
  exists_decomp_fuel l.length l (Nat.le_refl _) pos

/-!
## C1: the patch applier on an assembled buffer
-/

theorem assemble_append_single (ps : List (List Char × List Char)) (g r gfin : List Char) :
    assemble (ps ++ [(g, r)]) gfin = assemble ps (g ++ (r ++ gfin)) := by
  induction ps with
  | nil => rfl
  | cons q ps ih =>
    obtain ⟨qg, qr⟩ := q
    show qg ++ (qr ++ assemble (ps ++ [(g, r)]) gfin) = qg ++ (qr ++ assemble ps (g ++ (r ++ gfin)))
    rw [ih]

theorem assemble_eq_append (ps : List (List Char × List Char)) (x : List Char) :
    assemble ps x = assemble ps [] ++ x := by
  induction ps with
  | nil => rfl
  | cons q ps ih =>
    obtain ⟨qg, qr⟩ := q
    show qg ++ (qr ++ assemble ps x) = (qg ++ (qr ++ assemble ps [])) ++ x
    rw [ih]
    simp

theorem length_assemble_nil (ps : List (List Char × List Char)) :
    (assemble ps []).length = pairsLen ps := by
  induction ps with
  | nil => rfl
  | cons q ps ih =>
    obtain ⟨qg, qr⟩ := q
    show (qg ++ (qr ++ assemble ps [])).length = qg.length + qr.length + pairsLen ps
    simp [ih]
    omega

theorem spansOf_append (ps qs : List (List Char × List Char)) (pos : Nat) :
    spansOf (ps ++ qs) pos = spansOf ps pos ++ spansOf qs (pos + pairsLen ps) := by
  induction ps generalizing pos with
  | nil => simp [spansOf, pairsLen]
  | cons q ps ih =>
    obtain ⟨qg, qr⟩ := q
    show (pos + qg.length, qr) :: spansOf (ps ++ qs) (pos + qg.length + qr.length) = _
    rw [ih]
    show _ = (pos + qg.length, qr) :: (spansOf ps (pos + qg.length + qr.length) ++
      spansOf qs (pos + (qg.length + qr.length + pairsLen ps)))
    congr 3
    omega

theorem spansOf_lb (pairs : List (List Char × List Char)) (pos : Nat) :
    ∀ p ∈ spansOf pairs pos, pos ≤ p.1 := by
  induction pairs generalizing pos with
  | nil => intro p hp; simp [spansOf] at hp
  | cons q pairs ih =>
    obtain ⟨qg, qr⟩ := q
    intro p hp
    rcases List.mem_cons.mp hp with h1 | h2
    · rw [h1]
      omega
    · have := ih (pos + qg.length + qr.length) p h2
      omega

theorem repsOfC_lb (c : Nat → List Char → Option (List Char))
    (pairs : List (List Char × List Char)) (pos : Nat) :
    ∀ q ∈ repsOfC c pairs pos, pos ≤ q.1.1 := by
  intro q hq
  unfold repsOfC at hq
  obtain ⟨p, hp, hf⟩ := List.mem_filterMap.mp hq
  cases hc : c p.1 p.2 with
  | none => rw [hc] at hf; cases hf
  | some r2 =>
    rw [hc] at hf
    simp only [Option.map_some', Option.some.injEq] at hf
    have := spansOf_lb pairs pos p hp
    rw [← hf]
    exact this

theorem repsOfC_pairwise (c : Nat → List Char → Option (List Char))
    (pairs : List (List Char × List Char)) (pos : Nat)
    (hne : ∀ pr ∈ pairs, pr.2 ≠ []) :
    List.Pairwise (fun a b => a.1.1 < b.1.1) (repsOfC c pairs pos) := by
  induction pairs generalizing pos with
  | nil => simp [repsOfC, spansOf]
  | cons q pairs ih =>
    obtain ⟨qg, qr⟩ := q
    have hqr : qr ≠ [] := hne (qg, qr) (List.mem_cons_self _ _)
    have htail := ih (pos + qg.length + qr.length)
      (fun pr hpr => hne pr (List.mem_cons_of_mem _ hpr))
    show List.Pairwise _ ((spansOf ((qg, qr) :: pairs) pos).filterMap _)
    show List.Pairwise _ (((pos + qg.length, qr) ::
      spansOf pairs (pos + qg.length + qr.length)).filterMap _)
    rw [List.filterMap_cons]
    cases hc : c (pos + qg.length) qr with
    | none => exact htail
    | some r2 =>
      simp only [Option.map_some']
      refine List.Pairwise.cons ?_ htail
      intro b hb
      have := repsOfC_lb c pairs (pos + qg.length + qr.length) b hb
      have hql : 1 ≤ qr.length := by
        cases hq0 : qr with
        | nil => exact absurd hq0 hqr
        | cons x xs => simp
      simp only []
      omega

theorem insertDesc_all_gt (x : Patch) (l : List Patch)
    (h : ∀ y ∈ l, x.1.1 < y.1.1) :
    insertDescByStart x l = l ++ [x] := by
  induction l with
  | nil => rfl
  | cons y ys ih =>
    have hy := h y (List.mem_cons_self _ _)
    show (if y.1.1 ≤ x.1.1 then x :: y :: ys else y :: insertDescByStart x ys) = _
    rw [if_neg (by omega)]
    rw [ih (fun z hz => h z (List.mem_cons_of_mem _ hz))]
    rfl

theorem sortDesc_of_pairwise (l : List Patch)
    (h : List.Pairwise (fun a b => a.1.1 < b.1.1) l) :
    sortDescByStart l = l.reverse := by
  induction l with
  | nil => rfl
  | cons x xs ih =>
    show insertDescByStart x (sortDescByStart xs) = _
    rw [ih (List.Pairwise.sublist (List.sublist_cons_self x xs) h)]
    rw [insertDesc_all_gt x xs.reverse (by
      intro y hy
      exact (List.pairwise_cons.mp h).1 y (List.mem_reverse.mp hy))]
    simp

theorem replaceC_append (c : Nat → List Char → Option (List Char))
    (ps qs : List (List Char × List Char)) (pos : Nat) :
    replaceC c (ps ++ qs) pos = replaceC c ps pos ++ replaceC c qs (pos + pairsLen ps) := by
  induction ps generalizing pos with
  | nil => simp [replaceC, pairsLen]
  | cons q ps ih =>
    obtain ⟨qg, qr⟩ := q
    show (qg, (c (pos + qg.length) qr).getD qr) :: replaceC c (ps ++ qs)
      (pos + qg.length + qr.length) = _
    rw [ih]
    show _ = (qg, (c (pos + qg.length) qr).getD qr) ::
      (replaceC c ps (pos + qg.length + qr.length) ++
        replaceC c qs (pos + (qg.length + qr.length + pairsLen ps)))
    congr 3
    omega

theorem repsOfC_append (c : Nat → List Char → Option (List Char))
    (ps qs : List (List Char × List Char)) (pos : Nat) :
    repsOfC c (ps ++ qs) pos = repsOfC c ps pos ++ repsOfC c qs (pos + pairsLen ps) := by
  unfold repsOfC
  rw [spansOf_append, List.filterMap_append]

theorem fold_splice_assemble (c : Nat → List Char → Option (List Char))
    (pairs : List (List Char × List Char)) :
    ∀ (gfin : List Char), (∀ pr ∈ pairs, pr.2 ≠ []) →
    ((repsOfC c pairs 0).reverse).foldl (fun t p => splice t p.1.1 p.1.2 p.2)
      (assemble pairs gfin) = assemble (replaceC c pairs 0) gfin := by
  induction pairs using List.reverseRecOn with
  | nil => intro gfin _; rfl
  | append_singleton ps pr ih =>
    obtain ⟨g, r⟩ := pr
    intro gfin hne
    have hrne : r ≠ [] := hne (g, r) (by simp)
    have hrl : 1 ≤ r.length := by
      cases hr0 : r with
      | nil => exact absurd hr0 hrne
      | cons x xs => simp
    rw [repsOfC_append, List.reverse_append, List.foldl_append,
      assemble_append_single]
    have hsingle : repsOfC c [(g, r)] (0 + pairsLen ps) =
        (match c (pairsLen ps + g.length) r with
         | some r2 => [((pairsLen ps + g.length, pairsLen ps + g.length + r.length), r2)]
         | none => []) := by
      show List.filterMap _ [(0 + pairsLen ps + g.length, r)] = _
      rw [List.filterMap_cons]
      simp only [Nat.zero_add]
      cases hc : c (pairsLen ps + g.length) r with
      | none => rfl
      | some r2 => simp [List.filterMap_nil]
    rw [hsingle]
    have hA : (assemble ps [] ++ g).length = pairsLen ps + g.length := by
      rw [List.length_append, length_assemble_nil]
    cases hc : c (pairsLen ps + g.length) r with
    | none =>
      simp only [List.reverse_nil, List.foldl_nil]
      rw [ih (g ++ (r ++ gfin)) (fun pr hpr => hne pr (List.mem_append_left _ hpr))]
      rw [replaceC_append]
      show _ = assemble (replaceC c ps 0 ++
        [(g, (c (0 + pairsLen ps + g.length) r).getD r)]) gfin
      rw [assemble_append_single]
      simp only [Nat.zero_add, hc, Option.getD_none]
    | some r2 =>
      simp only [List.reverse_cons, List.reverse_nil, List.nil_append, List.foldl_cons]
      have hsplice : splice (assemble ps (g ++ (r ++ gfin)))
          (pairsLen ps + g.length) (pairsLen ps + g.length + r.length) r2 =
          assemble ps (g ++ (r2 ++ gfin)) := by
        rw [assemble_eq_append ps (g ++ (r ++ gfin))]
        unfold splice
        have htext : assemble ps [] ++ (g ++ (r ++ gfin)) =
            ((assemble ps [] ++ g) ++ r) ++ gfin := by simp
        rw [htext]
        have htake : (((assemble ps [] ++ g) ++ r) ++ gfin).take
            (pairsLen ps + g.length) = assemble ps [] ++ g := by
          have : ((assemble ps [] ++ g) ++ r) ++ gfin =
              (assemble ps [] ++ g) ++ (r ++ gfin) := by simp
          rw [this]
          exact take_left_of_length hA
        have hdrop : (((assemble ps [] ++ g) ++ r) ++ gfin).drop
            (pairsLen ps + g.length + r.length) = gfin := by
          apply drop_left_of_length
          rw [List.length_append, hA]
        rw [htake, hdrop]
        rw [assemble_eq_append ps (g ++ (r2 ++ gfin))]
        simp
      rw [hsplice]
      rw [List.foldl_nil]
      rw [ih (g ++ (r2 ++ gfin)) (fun pr hpr => hne pr (List.mem_append_left _ hpr))]
      rw [replaceC_append]
      show _ = assemble (replaceC c ps 0 ++
        [(g, (c (0 + pairsLen ps + g.length) r).getD r)]) gfin
      rw [assemble_append_single]
      simp only [Nat.zero_add, hc, Option.getD_some]

theorem applyPatches_assemble (c : Nat → List Char → Option (List Char))
    (pairs : List (List Char × List Char)) (gfin : List Char)
    (hne : ∀ pr ∈ pairs, pr.2 ≠ []) :
    applyPatches (assemble pairs gfin) (repsOfC c pairs 0) =
      assemble (replaceC c pairs 0) gfin := by
  unfold applyPatches
  rw [sortDesc_of_pairwise _ (repsOfC_pairwise c pairs 0 hne)]
  exact fold_splice_assemble c pairs gfin hne

theorem entryFull_ne_nil {r : List Char} (h : entryFull r) : r ≠ [] := by
  obtain ⟨r2, hr, _⟩ := entryFull_shape h
  intro h0
  rw [h0] at hr
  cases hr

theorem spansOf_snd (pairs : List (List Char × List Char)) (pos : Nat) :
    (spansOf pairs pos).map (fun p => p.2) = pairs.map (fun pr => pr.2) := by
  induction pairs generalizing pos with
  | nil => rfl
  | cons q pairs ih =>
    obtain ⟨qg, qr⟩ := q
    show qr :: (spansOf pairs (pos + qg.length + qr.length)).map (fun p => p.2) = _
    rw [ih]
    rfl

theorem map_replaceC (c : Nat → List Char → Option (List Char))
    (pairs : List (List Char × List Char)) (pos : Nat) :
    (replaceC c pairs pos).map (fun pr => pr.2) =
      (spansOf pairs pos).map (fun p => (c p.1 p.2).getD p.2) := by
  induction pairs generalizing pos with
  | nil => rfl
  | cons q pairs ih =>
    obtain ⟨qg, qr⟩ := q
    show (c (pos + qg.length) qr).getD qr ::
      (replaceC c pairs (pos + qg.length + qr.length)).map (fun pr => pr.2) = _
    rw [ih]
    rfl

theorem replaceC_mem (c : Nat → List Char → Option (List Char))
    (pairs : List (List Char × List Char)) (pos : Nat) :
    ∀ q ∈ replaceC c pairs pos, ∃ pr s, pr ∈ pairs ∧ (s, pr.2) ∈ spansOf pairs pos ∧
      q.1 = pr.1 ∧ q.2 = (c s pr.2).getD pr.2 := by
  induction pairs generalizing pos with
  | nil => intro q hq; simp [replaceC] at hq
  | cons p pairs ih =>
    obtain ⟨pg, pr2⟩ := p
    intro q hq
    rcases List.mem_cons.mp hq with h1 | h2
    · refine ⟨(pg, pr2), pos + pg.length, List.mem_cons_self _ _, ?_, ?_, ?_⟩
      · show (pos + pg.length, pr2) ∈ (pos + pg.length, pr2) :: _
        exact List.mem_cons_self _ _
      · rw [h1]
      · rw [h1]
    · obtain ⟨pr, s, hmem, hspan, hq1, hq2⟩ := ih (pos + pg.length + pr2.length) q h2
      exact ⟨pr, s, List.mem_cons_of_mem _ hmem, List.mem_cons_of_mem _ hspan, hq1, hq2⟩

/-- C1 (amended): applying the accumulated patches — sorted by descending
start offset and spliced at the records' original spans — to a buffer,
where each record's replacement text itself scans as exactly one record
(which holds whenever the injected names and values contain no `@` and no
closing marker), yields a buffer with the same record count in which every
record that received no patch retains its exact original text. -/
theorem c1_patch_applier (text : List Char) (f : Entry → Option (List Char))
    (hf : ∀ e ∈ parseEntriesEB text, ∀ r2, f e = some r2 → entryFull r2) :
    (parseEntriesEB (applyPatches text
      ((parseEntriesEB text).filterMap (fun e => (f e).map (fun r2 => (e.span, r2)))))).map
        (fun e => e.raw) =
      (parseEntriesEB text).map (fun e => (f e).getD e.raw) ∧
    (parseEntriesEB (applyPatches text
      ((parseEntriesEB text).filterMap (fun e => (f e).map (fun r2 => (e.span, r2)))))).length =
      (parseEntriesEB text).length := by
  obtain ⟨pairs, gfin, hassm, hprops, hend, hspans⟩ := exists_decomp text 0
  have hne : ∀ pr ∈ pairs, pr.2 ≠ [] :=
    fun pr hpr => entryFull_ne_nil (hprops pr hpr).2
  have hreps : (parseEntriesEB text).filterMap (fun e => (f e).map (fun r2 => (e.span, r2)))
      = repsOfC (fun s raw => f (mkEntryEB (s, raw))) pairs 0 := by
    unfold parseEntriesEB findEntries
    rw [hspans, List.filterMap_map]
    unfold repsOfC
    have hfun : ((fun e => (f e).map (fun r2 => (e.span, r2))) ∘ mkEntryEB) =
        (fun (p : Nat × List Char) => (f (mkEntryEB (p.1, p.2))).map
          (fun r2 => ((p.1, p.1 + p.2.length), r2))) := by
      funext p
      obtain ⟨s, raw⟩ := p
      rfl
    rw [hfun]
  have hnew : applyPatches text (repsOfC (fun s raw => f (mkEntryEB (s, raw))) pairs 0) =
      assemble (replaceC (fun s raw => f (mkEntryEB (s, raw))) pairs 0) gfin := by
    conv_lhs => rw [hassm]
    exact applyPatches_assemble _ pairs gfin hne
  have hprops2 : ∀ q ∈ replaceC (fun s raw => f (mkEntryEB (s, raw))) pairs 0,
      gapMidOK q.1 ∧ entryFull q.2 := by
    intro q hq
    obtain ⟨pr, s, hmem, hspan, hq1, hq2⟩ := replaceC_mem _ pairs 0 q hq
    refine ⟨by rw [hq1]; exact (hprops pr hmem).1, ?_⟩
    rw [hq2]
    cases hcs : f (mkEntryEB (s, pr.2)) with
    | none => simpa using (hprops pr hmem).2
    | some r2 =>
      simp only [Option.getD_some]
      apply hf (mkEntryEB (s, pr.2)) ?_ r2 hcs
      unfold parseEntriesEB findEntries
      rw [hspans]
      exact List.mem_map_of_mem mkEntryEB hspan
  have hspans2 := findAux_assemble (replaceC (fun s raw => f (mkEntryEB (s, raw))) pairs 0)
    gfin 0 hprops2 hend
  have hmain : (parseEntriesEB (applyPatches text
      ((parseEntriesEB text).filterMap (fun e => (f e).map (fun r2 => (e.span, r2)))))).map
        (fun e => e.raw) =
      (parseEntriesEB text).map (fun e => (f e).getD e.raw) := by
    rw [hreps, hnew]
    unfold parseEntriesEB findEntries
    rw [hspans2, hspans, List.map_map, List.map_map]
    rw [show ((fun (e : Entry) => e.raw) ∘ mkEntryEB) = (fun (p : Nat × List Char) => p.2) from
      funext fun p => rfl]
    rw [spansOf_snd, map_replaceC]
    congr 1
  refine ⟨hmain, ?_⟩
  have := congrArg List.length hmain
  simpa using this

/-- A patch value containing `@` and a closing marker changes the record
count: the original buffer scans as one record, the patched buffer as two. -/
theorem c1_counterexample :
    (parseEntriesEB (("@a\x7bk,\n  t = \x7bT\x7d,\n\x7d").data)).length = 1 ∧
    (parseEntriesEB (applyPatches (("@a\x7bk,\n  t = \x7bT\x7d,\n\x7d").data)
      ((parseEntriesEB (("@a\x7bk,\n  t = \x7bT\x7d,\n\x7d").data)).map (fun e =>
        (e.span, inject_fields e.raw
          ([(("p").data, ("@x\x7b\n\x7d@y\x7b\n\x7d").data)])))))).length = 2 := by
  decide

theorem c1_witness :
    (∀ e ∈ parseEntriesEB (("@a\x7bk,\n\x7d ok @b\x7bj,\n  t = \x7bT\x7d,\n\x7d").data),
        ∀ r2, (fun (_ : Entry) => some (("@c\x7bm,\n\x7d").data)) e = some r2 →
          entryFull r2) ∧
    ((parseEntriesEB (applyPatches (("@a\x7bk,\n\x7d ok @b\x7bj,\n  t = \x7bT\x7d,\n\x7d").data)
        ((parseEntriesEB (("@a\x7bk,\n\x7d ok @b\x7bj,\n  t = \x7bT\x7d,\n\x7d").data)).filterMap
          (fun e => ((fun (_ : Entry) => some (("@c\x7bm,\n\x7d").data)) e).map
            (fun r2 => (e.span, r2)))))).map (fun e => e.raw) =
      (parseEntriesEB (("@a\x7bk,\n\x7d ok @b\x7bj,\n  t = \x7bT\x7d,\n\x7d").data)).map
        (fun e => ((fun (_ : Entry) => some (("@c\x7bm,\n\x7d").data)) e).getD e.raw) ∧
      (parseEntriesEB (applyPatches (("@a\x7bk,\n\x7d ok @b\x7bj,\n  t = \x7bT\x7d,\n\x7d").data)
        ((parseEntriesEB (("@a\x7bk,\n\x7d ok @b\x7bj,\n  t = \x7bT\x7d,\n\x7d").data)).filterMap
          (fun e => ((fun (_ : Entry) => some (("@c\x7bm,\n\x7d").data)) e).map
            (fun r2 => (e.span, r2)))))).length =
        (parseEntriesEB (("@a\x7bk,\n\x7d ok @b\x7bj,\n  t = \x7bT\x7d,\n\x7d").data)).length) := by
  have h : ∀ e ∈ parseEntriesEB (("@a\x7bk,\n\x7d ok @b\x7bj,\n  t = \x7bT\x7d,\n\x7d").data),
      ∀ r2, (fun (_ : Entry) => some (("@c\x7bm,\n\x7d").data)) e = some r2 →
        entryFull r2 := by
    intro e _ r2 hr
    injection hr with hh
    subst hh
    unfold entryFull
    decide
  exact ⟨h, c1_patch_applier _ _ h⟩
